import Mathlib

/-!
Verification development for the storage-and-concurrency core of the
MyBustub relational database engine: LRU-K replacer, buffer pool manager,
B+Tree index, and multi-granularity lock manager.  Each C++ structure is
shallowly embedded as a pure Lean structure, and each mutating member
function as a pure state-passing function; `throw`-style C++ exceptions
become `Except` errors.
-/

set_option maxRecDepth 10000

namespace MyBustub

/-- Association-list erase by key (models `std::map::erase` / erasing a
uniquely-keyed element from a `std::list`). -/
def eraseKey {κ α : Type} [DecidableEq κ] (m : List (κ × α)) (f : κ) :
    List (κ × α) :=
  m.filter (fun e => e.1 ≠ f)

/-- Association-list lookup (models `std::map::find`). -/
def lookupKey {κ α : Type} [DecidableEq κ] (m : List (κ × α)) (f : κ) :
    Option α :=
  (m.find? (fun e => e.1 = f)).map (·.2)

/-- Key membership in an association list. -/
def hasKey {κ α : Type} [DecidableEq κ] (m : List (κ × α)) (f : κ) : Bool :=
  m.any (fun e => e.1 = f)

/-- Errors thrown by the replacer (`std::logic_error` in the source). -/
inductive RepErr : Type
  | invalidFrame
  | assertFail
  | removeNonEvictable
  deriving DecidableEq, Repr

/-! ## LRU-K replacer, unified variant (`src/buffer/lru_k_replacer.cpp`)

State of `LRUKReplacer`: two recency lists `history_` (entries
`(frame, access count)`) and `buffer_` (entries `(frame, timestamp)`),
both most-recent-at-front, plus the `non_evictale_` map holding the
evictable flag of every tracked frame (`true` = evictable), and the
counter `curr_size_`.  The auxiliary `history_map_` / `buffer_map_`
iterator maps of the C++ are represented by list membership itself. -/

structure Rep where
  capacity : Nat
  k : Nat
  timestamp : Nat
  history : List (Nat × Nat)
  buffer : List (Nat × Nat)
  nonEvictale : List (Nat × Bool)
  currSize : Nat
  deriving Repr, DecidableEq

namespace Rep

/-- `LRUKReplacer::LRUKReplacer(num_frames, k)`. -/
def init (numFrames k : Nat) : Rep :=
  ⟨numFrames, k, 0, [], [], [], 0⟩

/-- `LRUKReplacer::RecordAccess` of the unified variant.  The check is
`frame_id > replacer_size_` (strict), a buffer hit splices the node to the
front of `buffer_` and refreshes its timestamp, a history hit increments
the count and on reaching `k_` moves the node to the front of `buffer_`
(the count is incremented once more on that path, as in the source), and
an unseen frame is pushed to the front of `history_` with count 1,
inserted into `non_evictale_` as evictable, and counted in `curr_size_`. -/
def recordAccess (r : Rep) (f : Nat) : Except RepErr Rep :=
  if f > r.capacity then .error .invalidFrame
  else
    let ts := r.timestamp + 1
    if hasKey r.buffer f then
      .ok { r with timestamp := ts, buffer := (f, ts) :: eraseKey r.buffer f }
    else
      match lookupKey r.history f with
      | some c =>
          if c + 1 ≥ r.k then
            .ok { r with timestamp := ts,
                         history := eraseKey r.history f,
                         buffer := (f, c + 2) :: r.buffer }
          else
            .ok { r with timestamp := ts,
                         history := r.history.map
                           (fun e => if e.1 = f then (f, c + 1) else e) }
      | none =>
          .ok { r with timestamp := ts,
                       history := (f, 1) :: r.history,
                       nonEvictale :=
                         if hasKey r.nonEvictale f then r.nonEvictale
                         else (f, true) :: r.nonEvictale,
                       currSize := r.currSize + 1 }

/-- `LRUKReplacer::SetEvictable`.  The source asserts that the frame is
tracked in `non_evictale_`; an assertion failure is modelled as an error. -/
def setEvictable (r : Rep) (f : Nat) (b : Bool) : Except RepErr Rep :=
  match lookupKey r.nonEvictale f with
  | none => .error .assertFail
  | some cur =>
      let size :=
        if b && !cur then r.currSize + 1
        else if !b && cur then r.currSize - 1
        else r.currSize
      .ok { r with currSize := size,
                   nonEvictale := r.nonEvictale.map
                     (fun e => if e.1 = f then (f, b) else e) }

/-- The evictable flag of a frame as read by `Evict`'s
`non_evictale_[frame]` (`operator[]` defaults to `false`). -/
def flagOf (r : Rep) (f : Nat) : Bool :=
  (lookupKey r.nonEvictale f).getD false

/-- `LRUKReplacer::Evict`: scan `history_` from the tail for the first
frame whose `non_evictale_` flag is true, else scan `buffer_` from the
tail; the victim is erased from its list, from `non_evictale_`, and
`curr_size_` is decremented. -/
def evict (r : Rep) : Option (Nat × Rep) :=
  match r.history.reverse.find? (fun e => r.flagOf e.1) with
  | some (f, _) =>
      some (f, { r with nonEvictale := eraseKey r.nonEvictale f,
                        history := eraseKey r.history f,
                        currSize := r.currSize - 1 })
  | none =>
      match r.buffer.reverse.find? (fun e => r.flagOf e.1) with
      | some (f, _) =>
          some (f, { r with nonEvictale := eraseKey r.nonEvictale f,
                            buffer := eraseKey r.buffer f,
                            currSize := r.currSize - 1 })
      | none => none

/-- `LRUKReplacer::Remove` of the unified variant: out-of-range ids throw,
untracked frames are ignored, and a tracked frame is erased from whichever
list holds it (regardless of its evictable flag). -/
def remove (r : Rep) (f : Nat) : Except RepErr Rep :=
  if f > r.capacity then .error .invalidFrame
  else if ¬ hasKey r.nonEvictale f then .ok r
  else if hasKey r.buffer f then
    .ok { r with nonEvictale := eraseKey r.nonEvictale f,
                 buffer := eraseKey r.buffer f,
                 currSize := r.currSize - 1 }
  else if hasKey r.history f then
    .ok { r with nonEvictale := eraseKey r.nonEvictale f,
                 history := eraseKey r.history f,
                 currSize := r.currSize - 1 }
  else .ok r

/-- Run `RecordAccess` over a list of frames. -/
def recordAll (r : Rep) (fs : List Nat) : Except RepErr Rep :=
  fs.foldlM recordAccess r

/-- Run `SetEvictable _ true` over a list of frames. -/
def setEvictableAll (r : Rep) (fs : List Nat) : Except RepErr Rep :=
  fs.foldlM (fun s f => s.setEvictable f true) r

/-- Call `Evict` `n` times, collecting the victims in call order. -/
def evictN : Rep → Nat → List Nat × Rep
  | r, 0 => ([], r)
  | r, n + 1 =>
      match r.evict with
      | none => ([], r)
      | some (f, r') =>
          let (fs, r'') := evictN r' n
          (f :: fs, r'')

/-- The scenario of claim C6: `k = 2`, capacity 7; access frames 1–6 once,
mark 1–6 evictable, access 1–5 again, access 3 and 4, then evict four
times.  Returns the victim sequence. -/
def scenarioC6 : Except RepErr (List Nat) := do
  let r := init 7 2
  let r ← r.recordAll [1, 2, 3, 4, 5, 6]
  let r ← r.setEvictableAll [1, 2, 3, 4, 5, 6]
  let r ← r.recordAll [1, 2, 3, 4, 5]
  let r ← r.recordAll [3, 4]
  return (evictN r 4).1

end Rep

/-! ## LRU-K replacer, dual-record variant (`lru_k_replacer.cpp`, unnamed
part 000)

In this variant `non_evictale_` holds the non-evictable frames themselves
(mapped to their saved timestamp), removed from the two lists; `history_`
and `buffer_` hold only the evictable frames. -/

structure DRep where
  capacity : Nat
  k : Nat
  timestamp : Nat
  history : List (Nat × Nat)
  buffer : List (Nat × Nat)
  nonEvictale : List (Nat × Nat)
  currSize : Nat
  deriving Repr, DecidableEq

namespace DRep

/-- `LRUKReplacer::Remove` of the dual-record variant: a frame present in
`non_evictale_` (i.e. currently non-evictable) throws before any state is
modified; otherwise the frame is erased from `buffer_` or `history_` if
present there, and untracked frames are ignored. -/
def remove (r : DRep) (f : Nat) : Except RepErr DRep :=
  if hasKey r.nonEvictale f then .error .removeNonEvictable
  else if hasKey r.buffer f then .ok { r with buffer := eraseKey r.buffer f }
  else if hasKey r.history f then .ok { r with history := eraseKey r.history f }
  else .ok r

end DRep

/-! ## Claims C6, C7, C8 -/

instance {ε α : Type} [DecidableEq ε] [DecidableEq α] : DecidableEq (Except ε α)
  | .ok a, .ok b => decidable_of_iff (a = b) (by simp)
  | .error a, .error b => decidable_of_iff (a = b) (by simp)
  | .ok _, .error _ => .isFalse (by simp)
  | .error _, .ok _ => .isFalse (by simp)

/-- C6 (counterexample): with `k = 2` and capacity 7, accessing frames
1–6 once, marking 1–6 evictable, accessing 1–5 again and then 3 and 4,
four consecutive `Evict` calls do *not* return the victim sequence
`6, 1, 5, 2` claimed by the specification. -/
theorem C6_victim_sequence_counterexample :
    Rep.scenarioC6 ≠ .ok [6, 1, 5, 2] := by decide

/-- C6 (amended): the same operation sequence returns the victim sequence
`6, 1, 2, 5`: frame 6 is the sole history victim, and the buffer victims
are taken from the tail of the recency list, i.e. 1, then 2, then 5
(frames 3 and 4 were refreshed last). -/
theorem C6_victim_sequence :
    Rep.scenarioC6 = .ok [6, 1, 2, 5] := by decide

/-- C7: `RecordAccess` throws `InvalidFrame` exactly when
`frame_id > capacity` — strict inequality.  In particular
`frame_id = capacity` is accepted, contradicting the claim that every
`frame_id ≥ capacity` fails. -/
theorem C7_invalidFrame_iff_gt_capacity (r : Rep) (f : Nat) :
    r.recordAccess f = .error .invalidFrame ↔ r.capacity < f := by
  unfold Rep.recordAccess
  split
  · next h => exact iff_of_true rfl h
  · next h =>
      refine iff_of_false (fun hEq => ?_) h
      split at hEq
      · simp at hEq
      · split at hEq
        · split at hEq <;> simp at hEq
        · simp at hEq

/-- `eraseKey` removes every entry with the given key. -/
theorem hasKey_eraseKey {κ α : Type} [DecidableEq κ] (m : List (κ × α))
    (f : κ) : hasKey (eraseKey m f) f = false := by
  simp [hasKey, eraseKey, List.any_eq_true]

/-- Erasing an absent key is the identity. -/
theorem eraseKey_of_not_hasKey {κ α : Type} [DecidableEq κ]
    {m : List (κ × α)} {f : κ}
    (h : hasKey m f = false) : eraseKey m f = m := by
  induction m with
  | nil => rfl
  | cons e rest ih =>
      simp only [hasKey, List.any_cons, Bool.or_eq_false_iff] at h
      simp only [eraseKey, List.filter_cons]
      have he : e.1 ≠ f := by
        have := h.1
        simpa using this
      rw [if_pos (by simpa using he)]
      exact congrArg (e :: ·) (ih h.2)

/-- C8: in the dual-record replacer variant, `Remove` on a frame held in
`non_evictale_` (i.e. currently non-evictable) throws
`RemoveNonEvictable` before any state is modified, and `Remove` on a
tracked evictable frame (present in `buffer_` or `history_`, but not in
both) succeeds and forgets the frame from both lists. -/
theorem C8_remove_nonEvictable_throws_evictable_forgets (r : DRep) (f : Nat) :
    (hasKey r.nonEvictale f = true → r.remove f = .error .removeNonEvictable) ∧
    (hasKey r.nonEvictale f = false →
      (hasKey r.buffer f = true ∨ hasKey r.history f = true) →
      (hasKey r.buffer f = false ∨ hasKey r.history f = false) →
      r.remove f = .ok { r with buffer := eraseKey r.buffer f,
                                history := eraseKey r.history f } ∧
        hasKey (eraseKey r.buffer f) f = false ∧
        hasKey (eraseKey r.history f) f = false) := by
  constructor
  · intro hne
    unfold DRep.remove
    rw [if_pos hne]
  · intro hne htracked hdisj
    refine ⟨?_, hasKey_eraseKey _ _, hasKey_eraseKey _ _⟩
    unfold DRep.remove
    rw [if_neg (by simp [hne])]
    rcases htracked with hb | hh
    · rw [if_pos hb]
      have hhist : hasKey r.history f = false := by
        rcases hdisj with h | h
        · rw [hb] at h; cases h
        · exact h
      rw [eraseKey_of_not_hasKey hhist]
    · have hbuf : hasKey r.buffer f = false := by
        rcases hdisj with h | h
        · exact h
        · rw [hh] at h; cases h
      rw [if_neg (by simp [hbuf]), if_pos hh,
        eraseKey_of_not_hasKey hbuf]

/-! ## Buffer pool manager (`src/buffer/buffer_pool_manager_instance.cpp`)

A `Page` object: its id (`page_id_`, `-1` = INVALID), pin count, dirty
flag, and its data buffer, abstracted to a single value. -/

structure BPage where
  pageId : Int
  pinCount : Int
  isDirty : Bool
  data : Nat
  deriving Repr, DecidableEq

instance : Inhabited BPage := ⟨⟨-1, 0, false, 0⟩⟩

/-- `BufferPoolManagerInstance` state: the frame array `pages_` (index =
frame id), the page table mapping page id to frame id, the free list, the
replacer, the disk contents seen through the disk manager, and
`next_page_id_`. -/
structure BPM where
  poolSize : Nat
  pages : List BPage
  pageTable : List (Int × Nat)
  freeList : List Nat
  replacer : Rep
  disk : List (Int × Nat)
  nextPageId : Int
  deriving Repr, DecidableEq

/-- `DiskManager::WritePage`. -/
def diskWrite (d : List (Int × Nat)) (pid : Int) (v : Nat) :
    List (Int × Nat) :=
  (pid, v) :: eraseKey d pid

/-- `DiskManager::ReadPage` (never-written pages read as zeroed). -/
def diskRead (d : List (Int × Nat)) (pid : Int) : Nat :=
  (lookupKey d pid).getD 0

namespace BPM

/-- `pages_[fid]`. -/
def getPage (s : BPM) (fid : Nat) : BPage :=
  s.pages.getD fid default

/-- `BufferPoolManagerInstance::GetAvailableFrame`: pop the free list if
non-empty, else ask the replacer for a victim, flushing it if dirty,
removing its page-table entry, and resetting its memory. -/
def getAvailableFrame (s : BPM) : Option (Nat × BPM) :=
  match s.freeList with
  | fid :: rest => some (fid, { s with freeList := rest })
  | [] =>
      match s.replacer.evict with
      | some (fid, rep') =>
          let pg := s.getPage fid
          let disk1 := if pg.isDirty then diskWrite s.disk pg.pageId pg.data
                       else s.disk
          some (fid, { s with replacer := rep', disk := disk1,
                              pageTable := eraseKey s.pageTable pg.pageId,
                              pages := s.pages.set fid
                                { pg with isDirty := false, data := 0 } })
      | none => none

/-- `BufferPoolManagerInstance::FetchPgImp`.  On a page-table hit the
source writes the frame back to disk if dirty, records the access, marks
the frame non-evictable, re-reads the frame's page from disk, and sets
`pin_count_ = 1`.  On a miss it installs the page id into a free or
evicted frame (reading from disk through the frame's *old* `page_id_`,
exactly as the source does) and sets `pin_count_ = 1`.  Returns the frame
id of the returned page, or `none` for the `nullptr` result. -/
def fetchPage (s : BPM) (pid : Int) : Except RepErr (Option Nat × BPM) :=
  match lookupKey s.pageTable pid with
  | some fid => do
      let pg := s.getPage fid
      let disk1 := if pg.isDirty then diskWrite s.disk pg.pageId pg.data
                   else s.disk
      let rep1 ← s.replacer.recordAccess fid
      let rep2 ← rep1.setEvictable fid false
      let pg' := { pg with data := diskRead disk1 pg.pageId, pinCount := 1 }
      .ok (some fid, { s with disk := disk1, replacer := rep2,
                              pages := s.pages.set fid pg' })
  | none =>
      match s.getAvailableFrame with
      | some (fid, s1) => do
          let s2 := { s1 with pageTable := (pid, fid) :: eraseKey s1.pageTable pid }
          let rep1 ← s2.replacer.recordAccess fid
          let rep2 ← rep1.setEvictable fid false
          let pg := s2.getPage fid
          let pg' := { pg with data := diskRead s2.disk pg.pageId, pinCount := 1 }
          .ok (some fid, { s2 with replacer := rep2,
                                   pages := s2.pages.set fid pg' })
      | none => .ok (none, s)

/-- `BufferPoolManagerInstance::UnpinPgImp`: a page-table miss or a
non-positive pin count returns `false`; otherwise the pin count is
decremented and, exactly when it reaches zero, the frame is marked
evictable and the dirty flag is *assigned* from the argument. -/
def unpinPage (s : BPM) (pid : Int) (d : Bool) :
    Except RepErr (Bool × BPM) :=
  match lookupKey s.pageTable pid with
  | some fid =>
      let pg := s.getPage fid
      if pg.pinCount ≤ 0 then .ok (false, s)
      else
        if pg.pinCount - 1 = 0 then do
          let rep' ← s.replacer.setEvictable fid true
          .ok (true, { s with replacer := rep',
                              pages := s.pages.set fid
                                { pg with pinCount := pg.pinCount - 1,
                                          isDirty := d } })
        else
          .ok (true, { s with pages := s.pages.set fid
                                { pg with pinCount := pg.pinCount - 1 } })
  | none => .ok (false, s)

end BPM

/-! ## Claims C1, C2 -/

/-- A single-frame pool whose frame 0 holds page 5 with pin count 2,
clean, with data 77 both in memory and on disk; the frame is tracked
non-evictable by the replacer. -/
def poolSample : BPM :=
  { poolSize := 1,
    pages := [⟨5, 2, false, 77⟩],
    pageTable := [(5, 0)],
    freeList := [],
    replacer := { capacity := 1, k := 2, timestamp := 3,
                  history := [(0, 1)], buffer := [],
                  nonEvictale := [(0, false)], currSize := 0 },
    disk := [(5, 77)],
    nextPageId := 6 }

/-- C1: fetching page 5, which is resident in `poolSample` with pin count
2, yields a state in which the page's pin count is 1 — the source assigns
`pin_count_ = 1` instead of incrementing — contradicting the claimed
`n ↦ n + 1` behaviour (which would give 3). -/
theorem C1_fetch_resident_resets_pin_count :
    (BPM.fetchPage poolSample 5).map
        (fun out => ((out.2.getPage 0).pinCount, out.1)) = .ok (1, some 0) ∧
      (1 : Int) ≠ 2 + 1 := by decide

/-- C2 (counterexample): in a pool whose frame 0 holds page 3 with pin
count 1 and dirty flag `true`, `unpin_page(3, false)` succeeds and leaves
the dirty flag `false`, not `true OR false = true` as claimed: the source
assigns the flag instead of OR-ing it. -/
theorem C2_unpin_overwrites_dirty_counterexample :
    (BPM.unpinPage
        { poolSize := 1,
          pages := [⟨3, 1, true, 9⟩],
          pageTable := [(3, 0)],
          freeList := [],
          replacer := { capacity := 1, k := 2, timestamp := 3,
                        history := [(0, 1)], buffer := [],
                        nonEvictale := [(0, false)], currSize := 0 },
          disk := [(3, 9)],
          nextPageId := 4 } 3 false).map
        (fun out => ((out.2.getPage 0).isDirty, out.1)) = .ok (false, true) ∧
      false ≠ (true || false) := by decide

/-- C2 (amended): for a resident page with positive pin count,
`unpin_page` decrements the pin count, marks the frame evictable and
assigns the dirty flag from the argument exactly when the count reaches
zero (leaving the dirty flag untouched otherwise), and returns `true`;
it returns `false` exactly when the page is not resident or its pin count
was already non-positive. -/
theorem C2_unpin_behaviour (s : BPM) (pid : Int) (d : Bool) :
    (∀ fid, lookupKey s.pageTable pid = some fid →
      (s.getPage fid).pinCount ≤ 0 →
        s.unpinPage pid d = .ok (false, s)) ∧
    (∀ fid, lookupKey s.pageTable pid = some fid →
      0 < (s.getPage fid).pinCount → (s.getPage fid).pinCount ≠ 1 →
        s.unpinPage pid d =
          .ok (true, { s with
            pages := s.pages.set fid
              ({ s.getPage fid with
                  pinCount := (s.getPage fid).pinCount - 1 }) })) ∧
    (∀ fid, lookupKey s.pageTable pid = some fid →
      (s.getPage fid).pinCount = 1 →
      ∀ rep', s.replacer.setEvictable fid true = .ok rep' →
        s.unpinPage pid d =
          .ok (true, { s with
            replacer := rep',
            pages := s.pages.set fid
              ({ s.getPage fid with pinCount := 0, isDirty := d }) })) ∧
    (lookupKey s.pageTable pid = none →
        s.unpinPage pid d = .ok (false, s)) := by
  refine ⟨?_, ?_, ?_, ?_⟩
  · intro fid hres hpin
    simp only [BPM.unpinPage, hres, if_pos hpin]
  · intro fid hres hpos hne
    simp only [BPM.unpinPage, hres]
    rw [if_neg (by omega), if_neg (by omega)]
  · intro fid hres hone rep' hrep
    simp only [BPM.unpinPage, hres, hone]
    norm_num [hrep]
    rfl
  · intro hres
    simp only [BPM.unpinPage, hres]

/-- C2 (witness): applying the amended theorem to `poolSample` (page 5
pinned twice) and to a non-resident page id. -/
theorem C2_unpin_behaviour_witness :
    BPM.unpinPage poolSample 5 false =
        .ok (true, { poolSample with
          pages := poolSample.pages.set 0
            ({ poolSample.getPage 0 with
                pinCount := (poolSample.getPage 0).pinCount - 1 }) }) ∧
      BPM.unpinPage poolSample 7 true = .ok (false, poolSample) :=
  ⟨(C2_unpin_behaviour poolSample 5 false).2.1 0 (by decide) (by decide)
      (by decide),
    (C2_unpin_behaviour poolSample 7 true).2.2.2 (by decide)⟩

/-- A concrete dual-record replacer state: frame 1 in history, frame 2 in
buffer, frame 3 non-evictable. -/
def dualSample : DRep := ⟨7, 2, 9, [(1, 5)], [(2, 6)], [(3, 4)], 2⟩

/-- C8 (witness): on `dualSample`, removing the non-evictable frame 3
throws `RemoveNonEvictable`, and removing the evictable buffered frame 2
succeeds. -/
theorem C8_remove_witness :
    dualSample.remove 3 = .error .removeNonEvictable ∧
      dualSample.remove 2 =
        .ok { dualSample with buffer := eraseKey dualSample.buffer 2,
                              history := eraseKey dualSample.history 2 } :=
  ⟨(C8_remove_nonEvictable_throws_evictable_forgets dualSample 3).1 (by decide),
    ((C8_remove_nonEvictable_throws_evictable_forgets dualSample 2).2
      (by decide) (by decide) (by decide)).1⟩

/-! ## B+Tree index iterator (`src/storage/index/index_iterator.cpp`)

The iterator holds a pointer `leaf_` to its current leaf page (null for
the end iterator) and a position `index_`.  For `operator==` only the
leaf's page id and the index are read, so the embedded iterator carries
the leaf page id as an `Option` (`none` = null pointer). -/

structure IndexIter where
  leafPageId : Option Nat
  index : Nat
  deriving Repr, DecidableEq

/-- `IndexIterator::operator==`:
`leaf_ == nullptr || (leaf_->GetPageId() == itr.leaf_->GetPageId() &&
index_ == itr.index_)`.  When the left leaf is non-null and the right
leaf is null, the source dereferences the null pointer — undefined
behaviour, modelled as `none`; the defined outcomes are `some true` /
`some false`. -/
def iterEq (a b : IndexIter) : Option Bool :=
  match a.leafPageId with
  | none => some true
  | some pa =>
      match b.leafPageId with
      | none => none
      | some pb => some (pa == pb && a.index == b.index)

/-! ## Claim C10 -/

/-- C10 (counterexample): comparing a concrete non-end iterator (leaf
page 4, index 2) against the end iterator is not `false`: the comparison
dereferences the end iterator's null leaf (undefined behaviour, `none`
in the embedding), so "`it == end` can be false" fails — the comparison
never returns at all rather than returning `false`. -/
theorem C10_eq_end_counterexample :
    iterEq ⟨some 4, 2⟩ ⟨none, 0⟩ = none ∧
      iterEq ⟨some 4, 2⟩ ⟨none, 0⟩ ≠ some false ∧
      iterEq ⟨some 4, 2⟩ ⟨none, 0⟩ ≠ some true := by decide

/-- C10 (amended): `operator==` returns `true` whenever the left-hand
iterator is the end iterator (null leaf), regardless of the right-hand
iterator; equality is still not symmetric, because comparing a non-end
iterator against the end iterator does not return `true` — it
dereferences the null leaf (undefined behaviour) instead of producing a
value. -/
theorem C10_end_eq_always_true :
    (∀ (i : Nat) (rhs : IndexIter), iterEq ⟨none, i⟩ rhs = some true) ∧
      iterEq ⟨some 4, 2⟩ ⟨none, 0⟩ ≠ some true := by
  exact ⟨fun i rhs => rfl, by decide⟩

/-! ## Lock manager (`src/concurrency/lock_manager.cpp`)

Lock modes, lock requests and per-object request queues.  A C++
`LockRequest` is identified inside its queue by pointer identity; since
`LockTable`/`LockRow` keep at most one request per transaction in a
queue, the embedded request is identified by its transaction id. -/

inductive LockMode : Type
  | IS | IX | S | SIX | X
  deriving DecidableEq, Repr

structure LockRequest where
  txnId : Nat
  mode : LockMode
  granted : Bool
  deriving DecidableEq, Repr

/-- The conflict test of `LockManager::GrantLock`'s `switch` over the
requested mode, applied to the mode of an already-granted request. -/
def conflictsGranted (reqMode lrMode : LockMode) : Bool :=
  match reqMode with
  | .S => lrMode == .IX || lrMode == .SIX || lrMode == .X
  | .X => true
  | .IS => lrMode == .X
  | .IX => lrMode == .S || lrMode == .SIX || lrMode == .X
  | .SIX => lrMode != .IS

/-- `LockManager::GrantLock`: walk the queue in order; a granted request
with a conflicting mode refuses the grant, an ungranted request other
than ours refuses it (we are not at the head of the ungranted region),
and reaching our own request grants it. -/
def grantLock (req : LockRequest) : List LockRequest → Bool
  | [] => false
  | lr :: rest =>
      if lr.granted then
        if conflictsGranted req.mode lr.mode then false
        else grantLock req rest
      else if req.txnId ≠ lr.txnId then false
      else true

/-- Modelled from the spec: `LockRequestQueue::InsertIntoQueue` (declared
in `lock_manager.h`, which is not among the sources) — a non-upgrade
request is appended at the tail, an upgrade request is placed at the head
of the ungranted region, i.e. before the first non-granted request but
behind all granted ones. -/
def insertIntoQueue (q : List LockRequest) (req : LockRequest)
    (isUpgrade : Bool) : List LockRequest :=
  if isUpgrade then insertUpgrade q req else q ++ [req]
where
  insertUpgrade : List LockRequest → LockRequest → List LockRequest
    | [], req => [req]
    | lr :: rest, req =>
        if lr.granted then lr :: insertUpgrade rest req else req :: lr :: rest

/-- `lock_quest->granted_ = true` for the queue entry of a transaction. -/
def setGranted (q : List LockRequest) (tid : Nat) : List LockRequest :=
  q.map (fun lr => if lr.txnId = tid then { lr with granted := true } else lr)

/-- One atomic transition of a lock-request queue, as performed under the
queue latch by `LockTable`/`LockRow`: inserting a fresh ungranted request
(plain or upgrade), granting a pending request when `GrantLock` accepts
it, and removing a transaction's request (unlock, abort, or the removal
of the old request during an upgrade). -/
inductive QStep : List LockRequest → List LockRequest → Prop
  | insert (q : List LockRequest) (tid : Nat) (m : LockMode) (upg : Bool)
      (hfresh : ∀ lr ∈ q, lr.txnId ≠ tid) :
      QStep q (insertIntoQueue q ⟨tid, m, false⟩ upg)
  | grant (q : List LockRequest) (req : LockRequest) (hmem : req ∈ q)
      (hpend : req.granted = false) (hg : grantLock req q = true) :
      QStep q (setGranted q req.txnId)
  | remove (q : List LockRequest) (tid : Nat) :
      QStep q (q.filter (fun lr => lr.txnId ≠ tid))

/-- Queue states reachable from the empty queue. -/
def QReach (q : List LockRequest) : Prop :=
  Relation.ReflTransGen QStep [] q

/-- The compatibility matrix exactly as claim C4 states it: X conflicts
with everything; SIX coexists only with IS; S conflicts with IX, SIX, X;
IX conflicts with S, SIX, X; IS conflicts only with X. -/
def specCompatible (a b : LockMode) : Bool :=
  match a, b with
  | .X, _ => false
  | _, .X => false
  | .SIX, m => m == .IS
  | m, .SIX => m == .IS
  | .S, .IX => false
  | .IX, .S => false
  | _, _ => true

/-- The source's conflict test agrees with the claim's matrix. -/
theorem conflictsGranted_eq_not_specCompatible (a b : LockMode) :
    conflictsGranted a b = !(specCompatible a b) := by
  cases a <;> cases b <;> rfl

/-- The claim's matrix is symmetric. -/
theorem specCompatible_symm (a b : LockMode) :
    specCompatible a b = specCompatible b a := by
  cases a <;> cases b <;> rfl

/-- Granted requests precede ungranted ones in the queue. -/
abbrev GrantedFirst (q : List LockRequest) : Prop :=
  q.Pairwise (fun a b => b.granted = true → a.granted = true)

/-- The inductive invariant of a lock-request queue: granted requests
form an initial segment, transaction ids are unique, and granted
requests are pairwise compatible. -/
def QInv (q : List LockRequest) : Prop :=
  GrantedFirst q ∧ (q.map (·.txnId)).Nodup ∧
    ∀ a ∈ q, ∀ b ∈ q, a.granted = true → b.granted = true →
      a.txnId ≠ b.txnId → specCompatible a.mode b.mode = true

/-- Members of `insertUpgrade`. -/
theorem mem_insertUpgrade {q : List LockRequest} {req a : LockRequest}
    (h : a ∈ insertIntoQueue.insertUpgrade q req) : a ∈ q ∨ a = req := by
  induction q with
  | nil =>
      simp only [insertIntoQueue.insertUpgrade, List.mem_singleton] at h
      exact Or.inr h
  | cons lr rest ih =>
      simp only [insertIntoQueue.insertUpgrade] at h
      split at h
      · rcases List.mem_cons.mp h with h' | h'
        · exact Or.inl (h' ▸ List.mem_cons_self lr rest)
        · rcases ih h' with h'' | h''
          · exact Or.inl (List.mem_cons_of_mem _ h'')
          · exact Or.inr h''
      · rcases List.mem_cons.mp h with h' | h'
        · exact Or.inr h'
        · exact Or.inl h'

/-- Members of `insertIntoQueue`. -/
theorem mem_insertIntoQueue {q : List LockRequest} {req a : LockRequest}
    {upg : Bool} (h : a ∈ insertIntoQueue q req upg) : a ∈ q ∨ a = req := by
  unfold insertIntoQueue at h
  split at h
  · exact mem_insertUpgrade h
  · rcases List.mem_append.mp h with h' | h'
    · exact Or.inl h'
    · exact Or.inr (List.mem_singleton.mp h')

/-- The transaction ids of `insertIntoQueue` are a permutation of the old
ids with the new one appended. -/
theorem insertIntoQueue_txnIds_perm (q : List LockRequest)
    (req : LockRequest) (upg : Bool) :
    ((insertIntoQueue q req upg).map (·.txnId)).Perm
      (q.map (·.txnId) ++ [req.txnId]) := by
  unfold insertIntoQueue
  split
  · induction q with
    | nil => simp [insertIntoQueue.insertUpgrade]
    | cons lr rest ih =>
        simp only [insertIntoQueue.insertUpgrade]
        split
        · simpa using ih.cons lr.txnId
        · refine (List.Perm.refl _).cons req.txnId |>.trans ?_
          simpa using @List.perm_append_comm _ [req.txnId]
            (lr.txnId :: rest.map (·.txnId))
  · simp

/-- An upgrade insertion of an ungranted request preserves the
granted-first layout. -/
theorem grantedFirst_insertUpgrade {q : List LockRequest}
    {req : LockRequest} (hpw : GrantedFirst q) :
    GrantedFirst (insertIntoQueue.insertUpgrade q req) := by
  induction q with
  | nil => exact List.pairwise_singleton _ _
  | cons lr rest ih =>
      rw [GrantedFirst, List.pairwise_cons] at hpw
      simp only [insertIntoQueue.insertUpgrade]
      split
      · next hg =>
          rw [GrantedFirst, List.pairwise_cons]
          refine ⟨?_, ih hpw.2⟩
          intro b hb _
          exact hg
      · next hg =>
          rw [GrantedFirst, List.pairwise_cons]
          refine ⟨?_, List.pairwise_cons.mpr hpw⟩
          intro b hb hbg
          rcases List.mem_cons.mp hb with h' | h'
          · exact absurd (h' ▸ hbg) hg
          · exact absurd (hpw.1 b h' hbg) hg

/-- Inserting an ungranted request preserves the granted-first layout. -/
theorem grantedFirst_insertIntoQueue {q : List LockRequest}
    {req : LockRequest} {upg : Bool} (hpw : GrantedFirst q)
    (hreq : req.granted = false) :
    GrantedFirst (insertIntoQueue q req upg) := by
  unfold insertIntoQueue
  split
  · exact grantedFirst_insertUpgrade hpw
  · rw [GrantedFirst, List.pairwise_append]
    refine ⟨hpw, List.pairwise_singleton _ _, ?_⟩
    intro a _ b hb hbg
    rw [List.mem_singleton] at hb
    exact absurd (hb ▸ hbg) (by simp [hreq])

/-- If `GrantLock` accepts a pending request, every queue entry before it
is granted and mode-compatible with it. -/
theorem grantLock_before_granted (req : LockRequest) :
    ∀ (l1 l2 : List LockRequest),
      grantLock req (l1 ++ req :: l2) = true →
      (∀ a ∈ l1, a.txnId ≠ req.txnId) →
      ∀ a ∈ l1, a.granted = true ∧ conflictsGranted req.mode a.mode = false
  | [], _, _, _, a, ha => absurd ha (List.not_mem_nil a)
  | lr :: l1', l2, hg, hfresh, a, ha => by
      rw [List.cons_append] at hg
      unfold grantLock at hg
      split at hg
      · next hgr =>
          split at hg
          · cases hg
          · next hconf =>
              rcases List.mem_cons.mp ha with h' | h'
              · subst h'
                exact ⟨hgr, by simpa using hconf⟩
              · exact grantLock_before_granted req l1' l2 hg
                  (fun b hb => hfresh b (List.mem_cons_of_mem _ hb)) a h'
      · split at hg
        · cases hg
        · next hne =>
            have he : req.txnId = lr.txnId := by simpa using hne
            exact absurd he.symm (hfresh lr (List.mem_cons_self _ _))

/-- In a granted-first queue, everything after a pending request is
pending. -/
theorem ungranted_after {l1 l2 : List LockRequest} {req : LockRequest}
    (hpw : GrantedFirst (l1 ++ req :: l2)) (hreq : req.granted = false) :
    ∀ b ∈ l2, b.granted = false := by
  rw [GrantedFirst, List.pairwise_append] at hpw
  have h := List.pairwise_cons.mp hpw.2.1
  intro b hb
  by_contra hbg
  exact (by simpa [hreq] using h.1 b hb (by simpa using hbg))

/-- `setGranted` on a queue whose only entry for the transaction is `req`
flips exactly that entry. -/
theorem setGranted_decomp (l1 l2 : List LockRequest) (req : LockRequest)
    (h1 : ∀ a ∈ l1, a.txnId ≠ req.txnId) (h2 : ∀ a ∈ l2, a.txnId ≠ req.txnId) :
    setGranted (l1 ++ req :: l2) req.txnId =
      l1 ++ { req with granted := true } :: l2 := by
  unfold setGranted
  rw [List.map_append, List.map_cons, if_pos rfl]
  rw [List.map_congr_left (fun a ha => if_neg (h1 a ha)),
    List.map_congr_left (fun a ha => if_neg (h2 a ha))]
  simp

/-- Splitting the no-duplicate-transactions property at a queue entry. -/
theorem nodup_split {l1 l2 : List LockRequest} {req : LockRequest}
    (hnd : ((l1 ++ req :: l2).map (·.txnId)).Nodup) :
    (∀ a ∈ l1, a.txnId ≠ req.txnId) ∧ (∀ a ∈ l2, a.txnId ≠ req.txnId) := by
  rw [List.map_append, List.map_cons] at hnd
  rw [List.nodup_middle, List.nodup_cons, List.mem_append] at hnd
  constructor
  · intro a ha he
    exact hnd.1 (Or.inl (he ▸ List.mem_map_of_mem (·.txnId) ha))
  · intro a ha he
    exact hnd.1 (Or.inr (he ▸ List.mem_map_of_mem (·.txnId) ha))

/-- `QStep.insert` preserves the queue invariant. -/
theorem qinv_insert {q : List LockRequest} (tid : Nat) (m : LockMode)
    (upg : Bool) (hfresh : ∀ lr ∈ q, lr.txnId ≠ tid) (hinv : QInv q) :
    QInv (insertIntoQueue q ⟨tid, m, false⟩ upg) := by
  obtain ⟨hpw, hnd, hcomp⟩ := hinv
  refine ⟨grantedFirst_insertIntoQueue hpw rfl, ?_, ?_⟩
  · rw [(insertIntoQueue_txnIds_perm q ⟨tid, m, false⟩ upg).nodup_iff]
    rw [List.nodup_append]
    refine ⟨hnd, List.nodup_singleton _, ?_⟩
    intro t ht
    rcases List.mem_map.mp ht with ⟨lr, hlr, rfl⟩
    simpa using (hfresh lr hlr)
  · intro a ha b hb hag hbg hne
    rcases mem_insertIntoQueue ha with ha' | ha'
    · rcases mem_insertIntoQueue hb with hb' | hb'
      · exact hcomp a ha' b hb' hag hbg hne
      · subst hb'
        simp at hbg
    · subst ha'
      simp at hag

/-- `QStep.grant` preserves the queue invariant. -/
theorem qinv_grant {q : List LockRequest} {req : LockRequest}
    (hmem : req ∈ q) (hpend : req.granted = false)
    (hg : grantLock req q = true) (hinv : QInv q) :
    QInv (setGranted q req.txnId) := by
  obtain ⟨hpw, hnd, hcomp⟩ := hinv
  obtain ⟨l1, l2, rfl⟩ := List.append_of_mem hmem
  obtain ⟨h1, h2⟩ := nodup_split hnd
  rw [setGranted_decomp l1 l2 req h1 h2]
  have hbefore := grantLock_before_granted req l1 l2 hg h1
  have hafter := ungranted_after hpw hpend
  have hpw1 : GrantedFirst l1 :=
    (List.pairwise_append.mp hpw).1
  have hpw2 : GrantedFirst l2 :=
    (List.pairwise_cons.mp (List.pairwise_append.mp hpw).2.1).2
  refine ⟨?_, ?_, ?_⟩
  · rw [GrantedFirst, List.pairwise_append]
    refine ⟨hpw1, ?_, ?_⟩
    · rw [List.pairwise_cons]
      exact ⟨fun b _ _ => rfl, hpw2⟩
    · intro a ha b _ _
      exact (hbefore a ha).1
  · have : ((l1 ++ { req with granted := true } :: l2).map (·.txnId)) =
        ((l1 ++ req :: l2).map (·.txnId)) := by
      simp
    rw [this]
    exact hnd
  · intro a ha b hb hag hbg hne
    rw [List.mem_append, List.mem_cons] at ha hb
    have bridge : ∀ g ∈ l1, specCompatible req.mode g.mode = true := by
      intro g hgm
      have := (hbefore g hgm).2
      rw [conflictsGranted_eq_not_specCompatible] at this
      simpa using this
    rcases ha with ha | ha | ha
    · rcases hb with hb | hb | hb
      · exact hcomp a (List.mem_append_left _ ha) b (List.mem_append_left _ hb)
          hag hbg hne
      · rw [hb]
        rw [specCompatible_symm]
        exact bridge a ha
      · exact absurd hbg (by rw [hafter b hb]; simp)
    · rcases hb with hb | hb | hb
      · rw [ha]
        exact bridge b hb
      · exact absurd (ha ▸ hb ▸ rfl : a.txnId = b.txnId) hne
      · exact absurd hbg (by rw [hafter b hb]; simp)
    · exact absurd hag (by rw [hafter a ha]; simp)

/-- `QStep.remove` preserves the queue invariant. -/
theorem qinv_remove {q : List LockRequest} (tid : Nat) (hinv : QInv q) :
    QInv (q.filter (fun lr => lr.txnId ≠ tid)) := by
  obtain ⟨hpw, hnd, hcomp⟩ := hinv
  have hs : List.Sublist (q.filter (fun lr => lr.txnId ≠ tid)) q :=
    List.filter_sublist q
  refine ⟨hpw.sublist hs, hnd.sublist (hs.map _), ?_⟩
  intro a ha b hb hag hbg hne
  exact hcomp a (List.mem_of_mem_filter ha) b (List.mem_of_mem_filter hb)
    hag hbg hne

/-- C4: in every lock-request queue state reachable from the empty queue
through insertions, `GrantLock`-approved grants, and removals, any two
granted requests of distinct transactions have compatible modes under the
claim's compatibility matrix. -/
theorem C4_granted_requests_pairwise_compatible (q : List LockRequest)
    (h : QReach q) :
    ∀ a ∈ q, ∀ b ∈ q, a.granted = true → b.granted = true →
      a.txnId ≠ b.txnId → specCompatible a.mode b.mode = true := by
  have hinv : QInv q := by
    induction h with
    | refl =>
        exact ⟨List.Pairwise.nil, by simp, by intro a ha; cases ha⟩
    | tail _ hstep ih =>
        cases hstep with
        | insert tid m upg hfresh => exact qinv_insert tid m upg hfresh ih
        | grant req hmem hpend hg => exact qinv_grant hmem hpend hg ih
        | remove tid => exact qinv_remove tid ih
  exact hinv.2.2

/-- Intermediate queue states of the sample grant history. -/
def qA : List LockRequest := [⟨1, .IS, false⟩]

def qB : List LockRequest := [⟨1, .IS, true⟩]

def qC : List LockRequest := [⟨1, .IS, true⟩, ⟨2, .S, false⟩]

def qD : List LockRequest := [⟨1, .IS, true⟩, ⟨2, .S, true⟩]

/-- A concrete reachable queue: transaction 1 granted IS, then
transaction 2 granted S. -/
theorem qReach_sample : QReach qD := by
  have s1 : QStep [] qA :=
    (show insertIntoQueue [] ⟨1, .IS, false⟩ false = qA by decide) ▸
      QStep.insert [] 1 .IS false (by intro lr hlr; cases hlr)
  have s2 : QStep qA qB :=
    (show setGranted qA 1 = qB by decide) ▸
      QStep.grant qA ⟨1, .IS, false⟩ (by decide) rfl (by decide)
  have s3 : QStep qB qC :=
    (show insertIntoQueue qB ⟨2, .S, false⟩ false = qC by decide) ▸
      QStep.insert qB 2 .S false (by decide)
  have s4 : QStep qC qD :=
    (show setGranted qC 2 = qD by decide) ▸
      QStep.grant qC ⟨2, .S, false⟩ (by decide) rfl (by decide)
  exact .trans (.single s1) (.trans (.single s2)
    (.trans (.single s3) (.single s4)))

/-- C4 (witness): in the concrete reachable queue `qD`, the two granted
requests IS (txn 1) and S (txn 2) are compatible. -/
theorem C4_granted_requests_pairwise_compatible_witness :
    specCompatible (⟨1, .IS, true⟩ : LockRequest).mode
      (⟨2, .S, true⟩ : LockRequest).mode = true :=
  C4_granted_requests_pairwise_compatible qD qReach_sample
    ⟨1, .IS, true⟩ (by decide) ⟨2, .S, true⟩ (by decide) rfl rfl (by decide)

/-! ## Deadlock detection (`LockManager::HasCycle` /
`LockManager::RunCycleDetection`)

The waits-for graph `waits_for_` maps a transaction id to the set of
transaction ids it waits on. -/

/-- The waits-for graph: adjacency list keyed by transaction id. -/
def WFG : Type := List (Nat × List Nat)

/-- The out-neighbours of a transaction. -/
def neighbors (g : WFG) (u : Nat) : List Nat :=
  (lookupKey g u).getD []

/-- An edge of the waits-for graph. -/
def edgeP (g : WFG) (u v : Nat) : Prop :=
  v ∈ neighbors g u

instance (g : WFG) (u v : Nat) : Decidable (edgeP g u v) :=
  inferInstanceAs (Decidable (v ∈ neighbors g u))

/-- `path.erase(path.begin(), find(path, v))` of `HasCycle`: drop the
prefix of the DFS path strictly before the first occurrence of `v`. -/
def dropUntil (v : Nat) : List Nat → List Nat
  | [] => []
  | x :: xs => if x = v then x :: xs else dropUntil v xs

/-- Modelled from the spec: `LockManager::DFS` (not among the sources) —
a deterministic depth-first search for a cycle.  `path` is the current
DFS stack; visiting `u` appends it and examines its neighbours in order:
a neighbour already on the path closes a cycle, whose nodes are the path
from that neighbour on; otherwise the search recurses.  The source's
`visited` memoization is omitted; `fuel` bounds the recursion depth. -/
def dfsVisit (g : WFG) : Nat → Nat → List Nat → Option (List Nat)
  | 0, _, _ => none
  | fuel + 1, u, path =>
      let path' := path ++ [u]
      (neighbors g u).findSome? (fun v =>
        if v ∈ path' then some (dropUntil v path')
        else dfsVisit g fuel v path')

/-- The start nodes scanned by `HasCycle` (the keys of `waits_for_`). -/
def graphKeys (g : WFG) : List Nat :=
  g.map Prod.fst

/-- The cycle found by `LockManager::HasCycle`, scanning start nodes in
map order. -/
def hasCycleFind (g : WFG) : Option (List Nat) :=
  (graphKeys g).findSome? (fun s => dfsVisit g (g.length + 1) s [])

/-- Sorted insertion (ascending). -/
def insertAsc (x : Nat) : List Nat → List Nat
  | [] => [x]
  | y :: ys => if x ≤ y then x :: y :: ys else y :: insertAsc x ys

/-- `std::sort` ascending, as insertion sort. -/
def sortAsc : List Nat → List Nat
  | [] => []
  | x :: xs => insertAsc x (sortAsc xs)

/-- `std::sort(path); path.back()` of `HasCycle`: the victim chosen from
a cycle. -/
def cycleVictim (c : List Nat) : Nat :=
  (sortAsc c).getLastD 0

/-- The victim transaction reported by `HasCycle`. -/
def hasCycleVictim (g : WFG) : Option Nat :=
  (hasCycleFind g).map cycleVictim

/-- `RunCycleDetection`'s removal of an aborted transaction from the
waits-for graph: erase its adjacency entry and delete it from every edge
set. -/
def removeTxn (g : WFG) (t : Nat) : WFG :=
  (eraseKey g t).map (fun e => (e.1, e.2.filter (fun x => x ≠ t)))

/-- `Transaction::SetState(ABORTED)` over a transaction-id → aborted-flag
map. -/
def setAborted (st : List (Nat × Bool)) (v : Nat) : List (Nat × Bool) :=
  (v, true) :: eraseKey st v

/-- The `while (HasCycle(&abort_id))` loop of `RunCycleDetection`: abort
the victim, remove it from the graph, and repeat.  Returns the victims in
abort order together with the final transaction states. -/
def detectLoop : Nat → WFG → List (Nat × Bool) → List Nat × List (Nat × Bool)
  | 0, _, st => ([], st)
  | fuel + 1, g, st =>
      match hasCycleVictim g with
      | some v =>
          let out := detectLoop fuel (removeTxn g v) (setAborted st v)
          (v :: out.1, out.2)
      | none => ([], st)

/-- One full detection pass of `RunCycleDetection`. -/
def runDetection (g : WFG) (st : List (Nat × Bool)) :
    List Nat × List (Nat × Bool) :=
  detectLoop (g.length + 1) g st

/-- A (non-empty) cycle of the waits-for graph: consecutive edges along
the list and a closing edge from its last node to its first. -/
def IsCycle (g : WFG) (c : List Nat) : Prop :=
  c ≠ [] ∧ c.Chain' (edgeP g) ∧
    ∀ x ∈ c.getLast?, ∀ y ∈ c.head?, edgeP g x y


/-- `dropUntil` yields a suffix. -/
theorem dropUntil_suffix (v : Nat) (l : List Nat) :
    (dropUntil v l).IsSuffix l := by
  induction l with
  | nil => exact List.nil_suffix
  | cons x xs ih =>
      unfold dropUntil
      split
      · exact List.suffix_refl _
      · exact ih.trans (List.suffix_cons x xs)

/-- `dropUntil` of a member starts with it. -/
theorem head?_dropUntil {v : Nat} {l : List Nat} (h : v ∈ l) :
    (dropUntil v l).head? = some v := by
  induction l with
  | nil => cases h
  | cons x xs ih =>
      unfold dropUntil
      split
      · next he => rw [he]; rfl
      · next he =>
          rcases List.mem_cons.mp h with h' | h'
          · exact absurd h'.symm he
          · exact ih h'

/-- `dropUntil` of a member is non-empty. -/
theorem dropUntil_ne_nil {v : Nat} {l : List Nat} (h : v ∈ l) :
    dropUntil v l ≠ [] := by
  intro hnil
  rw [← List.head?_eq_none_iff] at hnil
  rw [head?_dropUntil h] at hnil
  cases hnil

/-- A non-empty suffix has the same last element. -/
theorem getLast?_of_suffix {l d : List Nat} (hs : d.IsSuffix l)
    (hne : d ≠ []) : d.getLast? = l.getLast? := by
  obtain ⟨t, rfl⟩ := hs
  exact (List.getLast?_append_of_ne_nil t hne).symm

/-- Soundness of the DFS: any returned list is a genuine cycle, provided
the running path is an edge chain. -/
theorem dfsVisit_sound (g : WFG) :
    ∀ (fuel : Nat) (u : Nat) (path c : List Nat),
      (path ++ [u]).Chain' (edgeP g) →
      dfsVisit g fuel u path = some c → IsCycle g c := by
  intro fuel
  induction fuel with
  | zero => intro u path c _ h; cases h
  | succ fuel ih =>
      intro u path c hchain h
      unfold dfsVisit at h
      obtain ⟨v, hv, hfv⟩ := List.exists_of_findSome?_eq_some h
      split at hfv
      · next hin =>
          have hc : c = dropUntil v (path ++ [u]) := by
            exact (Option.some.inj hfv).symm
          subst hc
          refine ⟨dropUntil_ne_nil hin, ?_, ?_⟩
          · exact hchain.suffix (dropUntil_suffix v _)
          · intro x hx y hy
            rw [getLast?_of_suffix (dropUntil_suffix v _)
              (dropUntil_ne_nil hin), List.getLast?_concat] at hx
            rw [head?_dropUntil hin] at hy
            rw [Option.mem_def, Option.some.injEq] at hx hy
            rw [← hx, ← hy] at *
            exact hv
      · next hnin =>
          refine ih v (path ++ [u]) c ?_ hfv
          rw [List.chain'_append]
          refine ⟨hchain, List.chain'_singleton v, ?_⟩
          intro x hx y hy
          rw [List.getLast?_concat, Option.mem_def, Option.some.injEq] at hx
          rw [List.head?_cons, Option.mem_def, Option.some.injEq] at hy
          rw [← hx, ← hy] at *
          exact hv

/-- Completeness of the DFS: following a chain whose last node has an
edge back into the current path (or to the current node) cannot come up
empty, given enough fuel. -/
theorem dfsVisit_complete (g : WFG) :
    ∀ (suf : List Nat) (fuel : Nat) (u : Nat) (path : List Nat),
      suf.length + 1 ≤ fuel →
      (u :: suf).Chain' (edgeP g) →
      (∀ x ∈ (u :: suf).getLast?, ∃ t ∈ path ++ [u], edgeP g x t) →
      dfsVisit g fuel u path ≠ none := by
  intro suf
  induction suf with
  | nil =>
      intro fuel u path hfuel hchain hclose hnone
      obtain ⟨fuel', rfl⟩ : ∃ k, fuel = k + 1 := by
        cases fuel with
        | zero => omega
        | succ k => exact ⟨k, rfl⟩
      unfold dfsVisit at hnone
      rw [List.findSome?_eq_none_iff] at hnone
      obtain ⟨t, ht, hedge⟩ := hclose u rfl
      have := hnone t hedge
      rw [if_pos ht] at this
      cases this
  | cons v suf' ih =>
      intro fuel u path hfuel hchain hclose hnone
      obtain ⟨fuel', rfl⟩ : ∃ k, fuel = k + 1 := by
        cases fuel with
        | zero => omega
        | succ k => exact ⟨k, rfl⟩
      unfold dfsVisit at hnone
      rw [List.findSome?_eq_none_iff] at hnone
      have huv : edgeP g u v := (List.chain'_cons.mp hchain).1
      have := hnone v huv
      split at this
      · cases this
      · refine ih fuel' v (path ++ [u]) (by simpa using hfuel)
          (List.chain'_cons.mp hchain).2 ?_ this
        intro x hx
        obtain ⟨t, ht, hedge⟩ := hclose x (by
          rw [List.getLast?_cons_cons]
          exact hx)
        exact ⟨t, List.mem_append_left _ (List.mem_append.mpr
          (by rcases List.mem_append.mp ht with h | h
              · exact Or.inl h
              · exact Or.inr h)), hedge⟩

/-- An edge source is a key of the graph. -/
theorem mem_keys_of_edge {g : WFG} {u v : Nat} (h : edgeP g u v) :
    u ∈ graphKeys g := by
  unfold edgeP neighbors lookupKey at h
  cases hf : g.find? (fun e => e.1 = u) with
  | none => rw [hf] at h; cases h
  | some e =>
      have hkey : e.1 = u := by simpa using List.find?_some hf
      exact hkey ▸ List.mem_map_of_mem Prod.fst (List.mem_of_find?_eq_some hf)

/-- Every node of a cycle has an outgoing edge. -/
theorem cycle_exists_out_edge {g : WFG} {c : List Nat} (hc : IsCycle g c) :
    ∀ x ∈ c, ∃ y, edgeP g x y := by
  obtain ⟨hne, hchain, hclose⟩ := hc
  intro x hx
  obtain ⟨pre, post, rfl⟩ := List.append_of_mem hx
  cases post with
  | nil =>
      obtain ⟨y, hy⟩ : ∃ y, (pre ++ [x]).head? = some y := by
        cases pre with
        | nil => exact ⟨x, rfl⟩
        | cons a l => exact ⟨a, rfl⟩
      exact ⟨y, hclose x (by rw [List.getLast?_concat]; rfl) y hy⟩
  | cons z post' =>
      have hsuf : (x :: z :: post').IsSuffix (pre ++ x :: z :: post') :=
        ⟨pre, rfl⟩
      have := hchain.suffix hsuf
      exact ⟨z, (List.chain'_cons.mp this).1⟩

/-- Every node of a cycle is a key of the graph. -/
theorem cycle_subset_keys {g : WFG} {c : List Nat} (hc : IsCycle g c) :
    ∀ x ∈ c, x ∈ graphKeys g := by
  intro x hx
  obtain ⟨y, hy⟩ := cycle_exists_out_edge hc x hx
  exact mem_keys_of_edge hy

/-- If the graph has a simple cycle, `HasCycle`'s scan finds some cycle. -/
theorem hasCycleFind_complete {g : WFG}
    (h : ∃ c, IsCycle g c ∧ c.Nodup) :
    ∃ c', hasCycleFind g = some c' := by
  obtain ⟨c, hc, hnd⟩ := h
  obtain ⟨h0, tl, rfl⟩ : ∃ h0 tl, c = h0 :: tl := by
    cases c with
    | nil => exact absurd rfl hc.1
    | cons a l => exact ⟨a, l, rfl⟩
  have hsub := cycle_subset_keys hc
  have hlen : tl.length + 1 ≤ g.length + 1 := by
    have h1 : (h0 :: tl).length ≤ (graphKeys g).length := by
      have heq : (h0 :: tl).toFinset.card = (h0 :: tl).length :=
        List.toFinset_card_of_nodup hnd
      have hss : (h0 :: tl).toFinset ⊆ (graphKeys g).toFinset := by
        intro x hxx
        rw [List.mem_toFinset] at hxx ⊢
        exact hsub x hxx
      have h2 := Finset.card_le_card hss
      have h3 := List.toFinset_card_le (graphKeys g)
      omega
    have h4 : (graphKeys g).length = g.length := List.length_map _ _
    rw [List.length_cons, h4] at h1
    omega
  cases hfind : hasCycleFind g with
  | some c' => exact ⟨c', rfl⟩
  | none =>
      exfalso
      unfold hasCycleFind at hfind
      rw [List.findSome?_eq_none_iff] at hfind
      refine dfsVisit_complete g tl (g.length + 1) h0 [] hlen hc.2.1 ?_
        (hfind h0 (hsub h0 (List.mem_cons_self _ _)))
      intro x hx
      exact ⟨h0, by simp, hc.2.2 x hx h0 rfl⟩

/-- `insertAsc` inserts its element (as a permutation). -/
theorem insertAsc_perm (x : Nat) (l : List Nat) :
    (insertAsc x l).Perm (x :: l) := by
  induction l with
  | nil => exact List.Perm.refl _
  | cons y ys ih =>
      unfold insertAsc
      split
      · exact List.Perm.refl _
      · exact (ih.cons y).trans (List.Perm.swap x y ys)

/-- `sortAsc` permutes its input. -/
theorem sortAsc_perm (l : List Nat) : (sortAsc l).Perm l := by
  induction l with
  | nil => exact List.Perm.refl _
  | cons x xs ih =>
      exact (insertAsc_perm x (sortAsc xs)).trans (ih.cons x)

/-- `insertAsc` preserves ascending chains. -/
theorem insertAsc_chain {x : Nat} {l : List Nat}
    (h : l.Chain' (· ≤ ·)) : (insertAsc x l).Chain' (· ≤ ·) := by
  induction l with
  | nil => exact List.chain'_singleton x
  | cons y ys ih =>
      unfold insertAsc
      split
      · next hxy => exact List.chain'_cons.mpr ⟨hxy, h⟩
      · next hxy =>
          have hyx : y ≤ x := by omega
          cases ys with
          | nil => exact List.chain'_cons.mpr ⟨hyx, List.chain'_singleton x⟩
          | cons z zs =>
              have h' := List.chain'_cons.mp h
              have hrec := ih h'.2
              by_cases hxz : x ≤ z
              · have he : insertAsc x (z :: zs) = x :: z :: zs := by
                  unfold insertAsc
                  rw [if_pos hxz]
                rw [he]
                exact List.chain'_cons.mpr
                  ⟨hyx, List.chain'_cons.mpr ⟨hxz, h'.2⟩⟩
              · have he : insertAsc x (z :: zs) = z :: insertAsc x zs := by
                  simp only [insertAsc]
                  rw [if_neg hxz]
                rw [he] at hrec ⊢
                exact List.chain'_cons.mpr ⟨h'.1, hrec⟩

/-- `sortAsc` sorts ascending. -/
theorem sortAsc_chain (l : List Nat) : (sortAsc l).Chain' (· ≤ ·) := by
  induction l with
  | nil => exact List.chain'_nil
  | cons x xs ih => exact insertAsc_chain ih

/-- In an ascending chain, the last element dominates. -/
theorem le_getLastD_of_chain {l : List Nat} (h : l.Chain' (· ≤ ·)) :
    ∀ x ∈ l, x ≤ l.getLastD 0 := by
  induction l with
  | nil => intro x hx; cases hx
  | cons a l' ih =>
      intro x hx
      cases l' with
      | nil =>
          rw [List.mem_singleton] at hx
          subst hx
          exact Nat.le_refl _
      | cons b l'' =>
          have h' := List.chain'_cons.mp h
          have hlast : (a :: b :: l'').getLastD 0 = (b :: l'').getLastD 0 := rfl
          rw [hlast]
          rcases List.mem_cons.mp hx with h'' | h''
          · subst h''
            exact Nat.le_trans h'.1 (ih h'.2 b (List.mem_cons_self _ _))
          · exact ih h'.2 x h''

/-- The last element of a non-empty list is a member. -/
theorem getLastD_mem {l : List Nat} (h : l ≠ []) : l.getLastD 0 ∈ l := by
  induction l with
  | nil => exact absurd rfl h
  | cons a l' ih =>
      cases l' with
      | nil => exact List.mem_singleton.mpr rfl
      | cons b l'' =>
          exact List.mem_cons_of_mem a (ih (by simp))

/-- The victim of a cycle is a member of the cycle and dominates it. -/
theorem cycleVictim_is_max {c : List Nat} (h : c ≠ []) :
    cycleVictim c ∈ c ∧ ∀ x ∈ c, x ≤ cycleVictim c := by
  have hperm := sortAsc_perm c
  have hne : sortAsc c ≠ [] := by
    intro hnil
    rw [hnil] at hperm
    exact h hperm.symm.eq_nil
  constructor
  · exact hperm.mem_iff.mp (getLastD_mem hne)
  · intro x hx
    exact le_getLastD_of_chain (sortAsc_chain c) x (hperm.mem_iff.mpr hx)

/-- A transaction marked aborted stays marked. -/
theorem lookup_setAborted_self (st : List (Nat × Bool)) (v : Nat) :
    lookupKey (setAborted st v) v = some true := by
  simp [setAborted, lookupKey]

/-- Lookups of other transactions pass through `eraseKey`. -/
theorem lookupKey_eraseKey_ne {α : Type} (st : List (Nat × α)) {w v : Nat}
    (h : v ≠ w) : lookupKey (eraseKey st w) v = lookupKey st v := by
  induction st with
  | nil => rfl
  | cons e rest ih =>
      unfold eraseKey lookupKey at ih ⊢
      rw [List.filter_cons]
      by_cases he : e.1 = v
      · rw [if_pos (by simpa using (he ▸ h : e.1 ≠ w))]
        rw [List.find?_cons_of_pos _ (by simpa using he),
          List.find?_cons_of_pos _ (by simpa using he)]
      · by_cases hw : e.1 = w
        · rw [if_neg (by simpa using hw)]
          rw [List.find?_cons_of_neg _ (by simpa using he)]
          exact ih
        · rw [if_pos (by simpa using hw)]
          rw [List.find?_cons_of_neg _ (by simpa using he),
            List.find?_cons_of_neg _ (by simpa using he)]
          exact ih

/-- An aborted mark persists through the rest of the detection loop. -/
theorem detectLoop_preserves_aborted :
    ∀ (fuel : Nat) (g : WFG) (st : List (Nat × Bool)) (v : Nat),
      lookupKey st v = some true →
      lookupKey (detectLoop fuel g st).2 v = some true := by
  intro fuel
  induction fuel with
  | zero => intro g st v h; exact h
  | succ fuel ih =>
      intro g st v h
      unfold detectLoop
      cases hv : hasCycleVictim g with
      | none => exact h
      | some w =>
          by_cases hvw : v = w
          · subst hvw
            exact ih _ _ v (lookup_setAborted_self st v)
          · refine ih _ _ v ?_
            unfold setAborted
            have h1 : lookupKey ((w, true) :: eraseKey st w) v =
                lookupKey (eraseKey st w) v := by
              unfold lookupKey
              rw [List.find?_cons_of_neg _ (by simpa using Ne.symm hvw)]
            rw [h1, lookupKey_eraseKey_ne st hvw]
            exact h

/-! ## Claim C5 -/

/-- C5: for every waits-for graph containing a (simple) deadlock cycle,
the detector finds a genuine cycle of the graph, selects exactly one
victim for it — the transaction with the largest txn id among the
transactions in that cycle — aborts it first, and the victim's state is
ABORTED when the detection pass finishes. -/
theorem C5_deadlock_victim_is_max_of_cycle (g : WFG)
    (st : List (Nat × Bool)) (h : ∃ c, IsCycle g c ∧ c.Nodup) :
    ∃ c v,
      hasCycleFind g = some c ∧ IsCycle g c ∧
      hasCycleVictim g = some v ∧ v ∈ c ∧ (∀ x ∈ c, x ≤ v) ∧
      (runDetection g st).1.head? = some v ∧
      lookupKey (runDetection g st).2 v = some true := by
  obtain ⟨c, hfind⟩ := hasCycleFind_complete h
  have hcyc : IsCycle g c := by
    unfold hasCycleFind at hfind
    obtain ⟨s, _, hds⟩ := List.exists_of_findSome?_eq_some hfind
    exact dfsVisit_sound g (g.length + 1) s [] c (by simp) hds
  have hmax := cycleVictim_is_max hcyc.1
  have hv : hasCycleVictim g = some (cycleVictim c) := by
    unfold hasCycleVictim
    rw [hfind]
    rfl
  refine ⟨c, cycleVictim c, hfind, hcyc, hv, hmax.1, hmax.2, ?_, ?_⟩
  · simp only [runDetection, detectLoop, hv, List.head?_cons]
  · simp only [runDetection, detectLoop, hv]
    exact detectLoop_preserves_aborted _ _ _ _
      (lookup_setAborted_self st (cycleVictim c))

/-- A two-transaction deadlock: 1 waits on 2 and 2 waits on 1. -/
def wfgSample : WFG := [(1, [2]), (2, [1])]

/-- `[1, 2]` is a simple cycle of `wfgSample`. -/
theorem wfgSample_cycle : IsCycle wfgSample [1, 2] := by
  refine ⟨by decide, ?_, ?_⟩
  · exact List.chain'_cons.mpr ⟨by decide, List.chain'_singleton 2⟩
  · intro x hx y hy
    rw [show ([1, 2] : List Nat).getLast? = some 2 from rfl,
      Option.mem_def, Option.some.injEq] at hx
    rw [show ([1, 2] : List Nat).head? = some 1 from rfl,
      Option.mem_def, Option.some.injEq] at hy
    subst hx
    subst hy
    decide

/-- C5 (witness): on the two-cycle graph `wfgSample`, the detector finds
a cycle, aborts its maximal transaction first, and marks it ABORTED. -/
theorem C5_deadlock_victim_witness :
    ∃ c v,
      hasCycleFind wfgSample = some c ∧ IsCycle wfgSample c ∧
      hasCycleVictim wfgSample = some v ∧ v ∈ c ∧ (∀ x ∈ c, x ≤ v) ∧
      (runDetection wfgSample []).1.head? = some v ∧
      lookupKey (runDetection wfgSample []).2 v = some true :=
  C5_deadlock_victim_is_max_of_cycle wfgSample []
    ⟨[1, 2], wfgSample_cycle, by decide⟩

/-! ## B+Tree (`b_plus_tree.cpp` / `b_plus_tree_leaf_page.cpp`)

Keys and values are `Nat` (the source's comparator orders keys; `Nat`
order stands in for it).  A leaf page keeps its physical slot array
`array_` — including stale slots beyond `size_` left behind by splits —
because `LookUp`'s binary search can read slot `size_`.  Slots never
written read as zero, matching zero-initialized page memory.  Internal
pages are read only within `size_`, so they are embedded as their in-use
prefix of `(key, child page id)` entries (slot 0's key is unused). -/

/-- Read slot `i` of a physical array (unwritten memory is zeroed). -/
def slot (l : List (Nat × Nat)) (i : Nat) : Nat × Nat :=
  l.getD i (0, 0)

/-- Pad a physical array with zeroed slots up to length `n`. -/
def padTo (l : List (Nat × Nat)) (n : Nat) : List (Nat × Nat) :=
  l ++ List.replicate (n - l.length) (0, 0)

/-- Write slot `i`. -/
def writeSlot (l : List (Nat × Nat)) (i : Nat) (v : Nat × Nat) :
    List (Nat × Nat) :=
  (padTo l (i + 1)).set i v

/-- Read slots `[i, i+n)`. -/
def segment (l : List (Nat × Nat)) (i n : Nat) : List (Nat × Nat) :=
  ((padTo l (i + n)).drop i).take n

/-- Write `items` at consecutive slots starting at `start`
(`std::copy`). -/
def writeRange (l : List (Nat × Nat)) (start : Nat)
    (items : List (Nat × Nat)) : List (Nat × Nat) :=
  let padded := padTo l (start + items.length)
  padded.take start ++ items ++ padded.drop (start + items.length)

/-- `std::move_backward(array_ + dis, array_ + size, array_ + size + 1)`:
shift slots `[dis, size)` one to the right; slot `dis` keeps its old
value (it is overwritten right after). -/
def shiftRight (l : List (Nat × Nat)) (dis size : Nat) :
    List (Nat × Nat) :=
  let padded := padTo l (size + 1)
  padded.take (dis + 1) ++ (padded.drop dis).take (size - dis) ++
    padded.drop (size + 1)

/-- A `BPlusTreeLeafPage`: the physical slot array, the header `size_`,
`next_page_id_` (`none` = INVALID), `max_size_`, and `parent_page_id_`. -/
structure LeafNode where
  phys : List (Nat × Nat)
  size : Nat
  next : Option Nat
  maxSize : Nat
  parent : Option Nat
  deriving Repr, DecidableEq

/-- A `BPlusTreeInternalPage`, embedded as its in-use entries
`(key, child page id)` (slot 0's key unused), `max_size_`, and
`parent_page_id_`; `size_` is the length of `entries`. -/
structure InternalNode where
  entries : List (Nat × Nat)
  maxSize : Nat
  parent : Option Nat
  deriving Repr, DecidableEq

inductive BNode : Type
  | leaf : LeafNode → BNode
  | internal : InternalNode → BNode
  deriving Repr, DecidableEq

/-- The `BPlusTree` object together with the pages it owns in the buffer
pool: the page store, `root_page_id_`, the pool's next page id, and the
two fan-out bounds. -/
structure BTree where
  store : List (Nat × BNode)
  rootPageId : Option Nat
  nextPageId : Nat
  leafMaxSize : Nat
  internalMaxSize : Nat
  deriving Repr, DecidableEq

/-- Modelled from the spec: `BPlusTreePage::GetMinSize` (defined in
`b_plus_tree_page.cpp`, not among the sources) — `ceil(max_size / 2)`. -/
def minSize (maxSize : Nat) : Nat :=
  (maxSize + 1) / 2

/-- The hand-written binary search of `LookUp` (and the `std::lower_bound`
of `KeyInd`): `while (l < r) { mid = (l+r)/2; if (key(mid) < K) l = mid+1
else r = mid; }`, returning the final `l`.  `fuel ≥ r - l` makes the
fuelled recursion exact. -/
def lbAux (arr : List (Nat × Nat)) (K : Nat) : Nat → Nat → Nat → Nat
  | 0, l, _ => l
  | fuel + 1, l, r =>
      if l < r then
        let mid := (l + r) / 2
        if (slot arr mid).1 < K then lbAux arr K fuel (mid + 1) r
        else lbAux arr K fuel l mid
      else l

/-- The lower-bound index of `K` within the in-use prefix. -/
def lowerBound (arr : List (Nat × Nat)) (size K : Nat) : Nat :=
  lbAux arr K size 0 size

namespace LeafNode

/-- `BPlusTreeLeafPage::LookUp`: binary-search the in-use prefix and
compare the landing slot — which is slot `size_` (a stale or zeroed slot)
when `K` is greater than every stored key. -/
def lookUp (lf : LeafNode) (K : Nat) : Option Nat :=
  if lf.size ≤ 0 then
    if (slot lf.phys lf.size).1 = K then some (slot lf.phys lf.size).2
    else none
  else
    let r := lowerBound lf.phys lf.size K
    if (slot lf.phys r).1 = K then some (slot lf.phys r).2 else none

/-- `BPlusTreeLeafPage::KeyInd`. -/
def keyInd (lf : LeafNode) (K : Nat) : Nat :=
  lowerBound lf.phys lf.size K

/-- `BPlusTreeLeafPage::Insert`: append when the insertion point is the
end, reject an equal key, otherwise shift right and write. -/
def insert (lf : LeafNode) (K V : Nat) : Bool × LeafNode :=
  let dis := lf.keyInd K
  if dis = lf.size then
    (true, { lf with phys := writeSlot lf.phys dis (K, V),
                     size := lf.size + 1 })
  else if (slot lf.phys dis).1 = K then
    (false, lf)
  else
    (true, { lf with phys := writeSlot (shiftRight lf.phys dis lf.size)
                               dis (K, V),
                     size := lf.size + 1 })

/-- `BPlusTreeLeafPage::CopyN`: append `items` at `size_`. -/
def copyN (lf : LeafNode) (items : List (Nat × Nat)) : LeafNode :=
  { lf with phys := writeRange lf.phys lf.size items,
            size := lf.size + items.length }

/-- `BPlusTreeLeafPage::MoveHalfTo`: keep `GetMinSize()` entries, copy
`GetMaxSize() - GetMinSize()` entries starting at the split index to the
recipient. -/
def moveHalfTo (lf recip : LeafNode) : LeafNode × LeafNode :=
  let splitIndex := minSize lf.maxSize
  let donor := { lf with size := splitIndex }
  let recip' := recip.copyN (segment lf.phys splitIndex
    (lf.maxSize - splitIndex))
  (donor, recip')

/-- The keys stored in the in-use prefix. -/
def keys (lf : LeafNode) : List Nat :=
  (List.range lf.size).map (fun i => (slot lf.phys i).1)

end LeafNode

namespace InternalNode

/-- Modelled from the spec: `BPlusTreeInternalPage::LookUp` (tree
descent, not among the sources) — the child of the largest key index `i`
with `key[i] ≤ search_key`, treating slot 0 as `-∞`. -/
def lookUpChild : List (Nat × Nat) → Nat → Nat
  | [], _ => 0
  | [e], _ => e.2
  | e0 :: e1 :: rest, K =>
      if e1.1 ≤ K then lookUpChild (e1 :: rest) K else e0.2

/-- Modelled from the spec: `BPlusTreeInternalPage::InsertNodeAt` —
insert `(key, new child)` immediately after the entry of the old
child. -/
def insertNodeAt (nd : InternalNode) (oldPid key newPid : Nat) :
    InternalNode :=
  let idx := nd.entries.findIdx (fun e => e.2 = oldPid)
  { nd with entries := nd.entries.insertIdx (idx + 1) (key, newPid) }

end InternalNode

/-- Insert or overwrite a page in the store. -/
def putNode (s : List (Nat × BNode)) (pid : Nat) (n : BNode) :
    List (Nat × BNode) :=
  (pid, n) :: eraseKey s pid

namespace BTree

/-- `BPlusTree::BPlusTree`. -/
def empty (leafMax internalMax : Nat) : BTree :=
  ⟨[], none, 0, leafMax, internalMax⟩

/-- The parent page id recorded in a node's header. -/
def parentOf (t : BTree) (pid : Nat) : Option Nat :=
  match lookupKey t.store pid with
  | some (.leaf lf) => lf.parent
  | some (.internal nd) => nd.parent
  | none => none

/-- `SetParentPageId`. -/
def setParent (t : BTree) (pid newParent : Nat) : BTree :=
  match lookupKey t.store pid with
  | some (.leaf lf) =>
      let node := BNode.leaf { lf with parent := some newParent }
      { t with store := putNode t.store pid node }
  | some (.internal nd) =>
      let node := BNode.internal { nd with parent := some newParent }
      { t with store := putNode t.store pid node }
  | none => t

/-- `BPlusTree::GetLeafPage`'s descent loop, with fuel bounding the
depth (the source loops unboundedly; any fuel above the tree height is
exact). -/
def descend (t : BTree) : Nat → Nat → Nat → Option Nat
  | 0, _, _ => none
  | fuel + 1, pid, K =>
      match lookupKey t.store pid with
      | some (.leaf _) => some pid
      | some (.internal nd) =>
          descend t fuel (InternalNode.lookUpChild nd.entries K) K
      | none => none

/-- `BPlusTree::GetLeafPage`. -/
def getLeafPage (t : BTree) (K : Nat) : Option Nat :=
  match t.rootPageId with
  | none => none
  | some r => descend t (t.store.length + 1) r K

/-- `BPlusTree::StartNewTree`: allocate a fresh leaf root and insert the
pair.  (`UpdateRootPageId`'s header-page record is not modelled.) -/
def startNewTree (t : BTree) (K V : Nat) : BTree :=
  let pid := t.nextPageId
  let lf0 : LeafNode :=
    { phys := [], size := 0, next := none, maxSize := t.leafMaxSize,
      parent := none }
  let lf1 := (lf0.insert K V).2
  { t with store := putNode t.store pid (.leaf lf1),
           rootPageId := some pid,
           nextPageId := pid + 1 }

/-- `BPlusTree::InsertIntoParent`, with fuel bounding the recursion up
the tree.  The root case allocates a fresh internal root via
`PopulateNewRoot` (modelled from the spec) and reparents both children.
The non-root case inserts into the parent if it has room; otherwise it
follows the source's copy-split path: build an over-full copy, split off
the upper half into a fresh internal page (reparenting the moved
children, as the spec's `MoveHalfTo` does), copy the kept prefix back
over the parent, and recurse with the risen key. -/
def insertIntoParent (t : BTree) :
    Nat → Nat → Nat → Nat → BTree
  | 0, _, _, _ => t
  | fuel + 1, oldPid, key, newPid =>
      match t.parentOf oldPid with
      | none =>
          let rootPid := t.nextPageId
          let newRoot : InternalNode :=
            { entries := [(0, oldPid), (key, newPid)],
              maxSize := t.internalMaxSize, parent := none }
          let t1 := (t.setParent oldPid rootPid).setParent newPid rootPid
          { t1 with store := putNode t1.store rootPid (.internal newRoot),
                    rootPageId := some rootPid,
                    nextPageId := rootPid + 1 }
      | some parentPid =>
          match lookupKey t.store parentPid with
          | some (.internal pnd) =>
              if pnd.entries.length < t.internalMaxSize then
                let pnd' := pnd.insertNodeAt oldPid key newPid
                { t with store := putNode t.store parentPid (.internal pnd') }
              else
                let copy := pnd.insertNodeAt oldPid key newPid
                let newIPid := t.nextPageId
                let splitIdx := minSize copy.maxSize
                let kept := copy.entries.take splitIdx
                let moved := copy.entries.drop splitIdx
                let newInternal : InternalNode :=
                  { entries := moved, maxSize := t.internalMaxSize,
                    parent := pnd.parent }
                let risen := (moved.headD (0, 0)).1
                let t1 :=
                  { t with
                    store := putNode
                      (putNode t.store parentPid
                        (.internal { pnd with entries := kept }))
                      newIPid (.internal newInternal),
                    nextPageId := newIPid + 1 }
                let t2 := (moved.map Prod.snd).foldl
                  (fun acc c => acc.setParent c newIPid) t1
                insertIntoParent t2 fuel parentPid risen newIPid
          | _ => t

/-- `BPlusTree::InsertIntoLeaf`: descend, reject a duplicate found by
`LookUp`, insert, and split at `size ≥ max_size`, linking the new leaf
into the chain and reporting the risen key to the parent. -/
def insertIntoLeaf (t : BTree) (K V : Nat) : Bool × BTree :=
  match t.getLeafPage K with
  | some leafPid =>
      match lookupKey t.store leafPid with
      | some (.leaf lf) =>
          match lf.lookUp K with
          | some _ => (false, t)
          | none =>
              let lf1 := (lf.insert K V).2
              if lf1.size ≥ lf1.maxSize then
                let newPid := t.nextPageId
                let newLeaf0 : LeafNode :=
                  { phys := [], size := 0, next := none,
                    maxSize := t.leafMaxSize, parent := lf1.parent }
                let halves := lf1.moveHalfTo newLeaf0
                let lfNew := { halves.2 with next := halves.1.next }
                let lfOld := { halves.1 with next := some newPid }
                let risenKey := (slot lfNew.phys 0).1
                let t1 := { t with
                  store := putNode (putNode t.store leafPid (.leaf lfOld))
                    newPid (.leaf lfNew),
                  nextPageId := newPid + 1 }
                (true, t1.insertIntoParent (t1.store.length + 1)
                  leafPid risenKey newPid)
              else
                (true, { t with store := putNode t.store leafPid (.leaf lf1) })
      | _ => (false, t)
  | none => (false, t)

/-- `BPlusTree::Insert`. -/
def insert (t : BTree) (K V : Nat) : Bool × BTree :=
  match t.rootPageId with
  | none => (true, t.startNewTree K V)
  | some _ => t.insertIntoLeaf K V

/-- Insert a list of keys in order (each key paired with itself). -/
def insertAll (t : BTree) (ks : List Nat) : BTree :=
  ks.foldl (fun acc k => (acc.insert k k).2) t

/-- Walk the leaf chain from a leaf page, collecting `size_` fields. -/
def leafChainSizes (t : BTree) : Nat → Option Nat → List Nat
  | 0, _ => []
  | _, none => []
  | fuel + 1, some pid =>
      match lookupKey t.store pid with
      | some (.leaf lf) => lf.size :: leafChainSizes t fuel lf.next
      | _ => []

/-- The sizes of all leaves in chain order, starting from the leaf that
holds the smallest keys. -/
def leafSizes (t : BTree) : List Nat :=
  leafChainSizes t (t.store.length + 1) (t.getLeafPage 0)

/-- The multiset of keys stored under a page. -/
def keysUnder (s : List (Nat × BNode)) : Nat → Nat → List Nat
  | 0, _ => []
  | fuel + 1, pid =>
      match lookupKey s pid with
      | some (.leaf lf) => lf.keys
      | some (.internal nd) =>
          (nd.entries.map Prod.snd).flatMap (keysUnder s fuel)
      | none => []

/-- Whether the tree currently stores `K` (spec-level contents, defined
without going through `LookUp`). -/
def containsKey (t : BTree) (K : Nat) : Bool :=
  match t.rootPageId with
  | none => false
  | some r => decide (K ∈ keysUnder t.store (t.store.length + 1) r)

end BTree

/-! ## Claim C3 -/

/-- Keys 1..10 inserted in ascending order into an empty tree with
`leaf_max_size = internal_max_size = 4`. -/
def treeC3 : BTree :=
  BTree.insertAll (BTree.empty 4 4) [1, 2, 3, 4, 5, 6, 7, 8, 9, 10]

/-- C3 (counterexample): the resulting tree does not have 4 leaves — it
has 5, so the claimed final structure (4 leaves of sizes {2,2,2,4}) is
wrong. -/
theorem C3_leaf_structure_counterexample :
    BTree.leafSizes treeC3 = [2, 2, 2, 2, 2] ∧
      (BTree.leafSizes treeC3).length ≠ 4 := by decide

/-- C3 (amended): inserting keys 1 through 10 in ascending order produces
exactly 5 leaves, each of size 2: a leaf splits as soon as it reaches
`max_size` = 4 entries and the upper half (2 entries) moves to the new
leaf, so ascending insertion leaves a chain of half-full leaves.  (The
keys are all present: an in-order scan of the leaves yields 1..10.) -/
theorem C3_leaf_structure :
    BTree.leafSizes treeC3 = [2, 2, 2, 2, 2] ∧
      (∀ k ∈ [1, 2, 3, 4, 5, 6, 7, 8, 9, 10], BTree.containsKey treeC3 k) := by
  decide

/-! ## Claim C9: well-formedness and insert behaviour

`LeafWF lf lo hi` says the leaf's in-use prefix is strictly sorted inside
the half-open key window `[lo, hi)` (`hi = none` = unbounded) and that
the slot just past the prefix — the one `LookUp` may read — holds either
zeroed memory or a stale key at least `hi` (what splits leave behind). -/

structure LeafWF (lf : LeafNode) (lo : Nat) (hi : Option Nat) : Prop where
  size_pos : 1 ≤ lf.size
  keys_lo : ∀ i, i < lf.size → lo ≤ (slot lf.phys i).1
  keys_hi : ∀ i, i < lf.size → ∀ h, hi = some h → (slot lf.phys i).1 < h
  sorted : ∀ j, j < lf.size → ∀ i, i < j →
    (slot lf.phys i).1 < (slot lf.phys j).1
  stale_some : ∀ h, hi = some h → (slot lf.phys lf.size).1 = 0 ∨
    h ≤ (slot lf.phys lf.size).1
  stale_none : hi = none → (slot lf.phys lf.size).1 = 0

/-- The binary search `lbAux` computes the lower-bound index: given a
sorted in-use prefix and loop invariants on `[l, r)`, every slot before
the result is `< K` and the result's slot (if in range) is `≥ K`. -/
theorem lbAux_spec (arr : List (Nat × Nat)) (K size : Nat)
    (hs : ∀ i j, i ≤ j → j < size → (slot arr i).1 ≤ (slot arr j).1) :
    ∀ fuel l r, r ≤ size → l ≤ r → r - l ≤ fuel →
      (∀ j, j < l → (slot arr j).1 < K) →
      (∀ j, r ≤ j → j < size → K ≤ (slot arr j).1) →
      lbAux arr K fuel l r ≤ size ∧
        (∀ j, j < lbAux arr K fuel l r → (slot arr j).1 < K) ∧
        (lbAux arr K fuel l r < size → K ≤ (slot arr (lbAux arr K fuel l r)).1) := by
  intro fuel
  induction fuel with
  | zero =>
      intro l r hr hlr hfuel hleft hright
      have : l = r := by omega
      subst this
      simp only [lbAux]
      exact ⟨hr, hleft, fun hlt => hright l (Nat.le_refl l) hlt⟩
  | succ fuel ih =>
      intro l r hr hlr hfuel hleft hright
      simp only [lbAux]
      split
      · next hlt =>
          split
          · next hkey =>
              refine ih ((l + r) / 2 + 1) r hr (by omega) (by omega) ?_ hright
              intro j hj
              have hj2 : j ≤ (l + r) / 2 := by omega
              exact Nat.lt_of_le_of_lt (hs j ((l + r) / 2) hj2 (by omega)) hkey
          · next hkey =>
              refine ih l ((l + r) / 2) (by omega) (by omega) (by omega)
                hleft ?_
              intro j hj hjs
              exact Nat.le_trans (by omega) (hs ((l + r) / 2) j hj hjs)
      · next hge =>
          have : l = r := by omega
          subst this
          exact ⟨hr, hleft, fun hlt => hright l (Nat.le_refl l) hlt⟩

/-- The lower bound of `K` in a well-formed leaf. -/
theorem lowerBound_spec {lf : LeafNode} {lo : Nat} {hi : Option Nat}
    (hwf : LeafWF lf lo hi) (K : Nat) :
    lowerBound lf.phys lf.size K ≤ lf.size ∧
      (∀ j, j < lowerBound lf.phys lf.size K → (slot lf.phys j).1 < K) ∧
      (lowerBound lf.phys lf.size K < lf.size →
        K ≤ (slot lf.phys (lowerBound lf.phys lf.size K)).1) := by
  have hs : ∀ i j, i ≤ j → j < lf.size →
      (slot lf.phys i).1 ≤ (slot lf.phys j).1 := by
    intro i j hij hj
    rcases Nat.lt_or_ge i j with h | h
    · exact Nat.le_of_lt (hwf.sorted j hj i h)
    · have : i = j := by omega
      subst this
      exact Nat.le_refl _
  exact lbAux_spec lf.phys K lf.size hs lf.size 0 lf.size
    (Nat.le_refl _) (Nat.zero_le _) (by omega)
    (by intro j hj; omega)
    (by intro j hj hjs; omega)

/-- `LookUp` finds `K` in a well-formed leaf exactly when `K` is stored
in its in-use prefix, provided `K` lies in the leaf's window (which the
tree descent guarantees). -/
theorem leaf_lookUp_iff {lf : LeafNode} {lo : Nat} {hi : Option Nat}
    (hwf : LeafWF lf lo hi) (K : Nat)
    (hKhi : ∀ h, hi = some h → K < h) :
    (lf.lookUp K).isSome = true ↔
      ∃ i, i < lf.size ∧ (slot lf.phys i).1 = K := by
  obtain ⟨hle, hbelow, hat⟩ := lowerBound_spec hwf K
  unfold LeafNode.lookUp
  rw [if_neg (by have := hwf.size_pos; omega)]
  dsimp only
  constructor
  · intro hsome
    split at hsome
    · next heq =>
        rcases Nat.lt_or_ge (lowerBound lf.phys lf.size K) lf.size with
          hlt | hge
        · exact ⟨lowerBound lf.phys lf.size K, hlt, heq⟩
        · exfalso
          have hres : lowerBound lf.phys lf.size K = lf.size := by omega
          rw [hres] at heq
          have hsz := hwf.size_pos
          cases hi with
          | none =>
              have hst := hwf.stale_none rfl
              rw [hst] at heq
              have h0 : (slot lf.phys 0).1 < K := hbelow 0 (by omega)
              omega
          | some h =>
              rcases hwf.stale_some h rfl with hz | hg
              · rw [hz] at heq
                have h0 : (slot lf.phys 0).1 < K := hbelow 0 (by omega)
                omega
              · have hKlt := hKhi h rfl
                omega
    · cases hsome
  · rintro ⟨i, hi_, hk⟩
    have hres_le : lowerBound lf.phys lf.size K ≤ i := by
      by_contra hgt
      have := hbelow i (by omega)
      omega
    have hlt : lowerBound lf.phys lf.size K < lf.size := by omega
    have h1 := hat hlt
    have h2 : (slot lf.phys (lowerBound lf.phys lf.size K)).1 ≤ K := by
      rcases Nat.lt_or_ge (lowerBound lf.phys lf.size K) i with h | h
      · have hlt2 := hwf.sorted i hi_ (lowerBound lf.phys lf.size K) h
        omega
      · have heq : lowerBound lf.phys lf.size K = i := by omega
        rw [heq, hk]
    rw [if_pos (by omega)]
    rfl

/-- The key window of child `i` of an internal node: its lower bound is
the node's own bound for child 0 and the guide key at `i` otherwise. -/
def childLo (lo : Nat) (es : List (Nat × Nat)) (i : Nat) : Nat :=
  if i = 0 then lo else (slot es i).1

/-- The upper bound of child `i`: the next guide key, or the node's own
upper bound for the last child. -/
def childHi (hi : Option Nat) (es : List (Nat × Nat)) (i : Nat) :
    Option Nat :=
  if i + 1 < es.length then some ((slot es (i + 1)).1) else hi

/-- Well-formedness of the subtree rooted at a page, with its key window
and height: a leaf satisfies `LeafWF`; an internal node has at least two
children, strictly sorted guide keys lying in the window, and
well-formed children of uniform height in the derived windows. -/
inductive NodeWF (s : List (Nat × BNode)) :
    Nat → Nat → Option Nat → Nat → Prop
  | leaf (pid : Nat) (lo : Nat) (hi : Option Nat) (lf : LeafNode) :
      lookupKey s pid = some (.leaf lf) → LeafWF lf lo hi →
      NodeWF s pid lo hi 0
  | internal (pid : Nat) (lo : Nat) (hi : Option Nat) (nd : InternalNode)
      (h : Nat) :
      lookupKey s pid = some (.internal nd) →
      2 ≤ nd.entries.length →
      (∀ j, j < nd.entries.length → ∀ i, 1 ≤ i → i < j →
        (slot nd.entries i).1 < (slot nd.entries j).1) →
      (∀ i, 1 ≤ i → i < nd.entries.length →
        lo ≤ (slot nd.entries i).1 ∧
          (∀ hh, hi = some hh → (slot nd.entries i).1 < hh)) →
      (∀ i, i < nd.entries.length →
        NodeWF s (slot nd.entries i).2 (childLo lo nd.entries i)
          (childHi hi nd.entries i) h) →
      NodeWF s pid lo hi (h + 1)

/-- A well-formed tree: empty, or a well-formed root over the window
`[0, ∞)` whose height fits the page count (so the source's unbounded
descent loop is modelled exactly by the chosen fuel). -/
def TreeWF (t : BTree) : Prop :=
  t.rootPageId = none ∨
    ∃ h r, t.rootPageId = some r ∧ NodeWF t.store r 0 none h ∧
      h + 1 ≤ t.store.length + 1

/-- The descent step lands on the child whose window contains the key:
`lookUpChild` returns the child of the largest guide index whose key is
`≤ K`. -/
theorem lookUpChild_spec (K : Nat) :
    ∀ (es : List (Nat × Nat)), es ≠ [] →
      (∀ j, j < es.length → ∀ i, 1 ≤ i → i < j →
        (slot es i).1 < (slot es j).1) →
      ∃ i, i < es.length ∧
        InternalNode.lookUpChild es K = (slot es i).2 ∧
        (1 ≤ i → (slot es i).1 ≤ K) ∧
        (∀ j, i < j → j < es.length → K < (slot es j).1) := by
  intro es
  induction es with
  | nil => intro h; exact absurd rfl h
  | cons e0 rest ih =>
      intro _ hs
      cases rest with
      | nil =>
          refine ⟨0, by simp, rfl, by omega, ?_⟩
          intro j hj hjl
          simp at hjl
          omega
      | cons e1 rest' =>
          simp only [InternalNode.lookUpChild]
          split
          · next hle =>
              have hs' : ∀ j, j < (e1 :: rest').length → ∀ i, 1 ≤ i →
                  i < j → (slot (e1 :: rest') i).1 <
                    (slot (e1 :: rest') j).1 := by
                intro j hj i h1 hij
                have := hs (j + 1) (by simpa using Nat.succ_lt_succ hj)
                  (i + 1) (by omega) (by omega)
                simpa [slot] using this
              obtain ⟨i', hi', heq, hlow, hhigh⟩ :=
                ih (by simp) hs'
              refine ⟨i' + 1, by simpa using Nat.succ_lt_succ hi', ?_, ?_, ?_⟩
              · simpa [slot] using heq
              · intro _
                rcases Nat.eq_zero_or_pos i' with h0 | h1
                · subst h0
                  simpa [slot] using hle
                · have := hlow (by omega)
                  simpa [slot] using this
              · intro j hij hj
                obtain ⟨j', rfl⟩ : ∃ j', j = j' + 1 := ⟨j - 1, by omega⟩
                have := hhigh j' (by omega) (by simpa using hj)
                simpa [slot] using this
          · next hgt =>
              refine ⟨0, by simp, rfl, by omega, ?_⟩
              intro j h0j hj
              have h1e : (slot (e0 :: e1 :: rest') 1).1 = e1.1 := rfl
              rcases Nat.eq_or_lt_of_le (show 1 ≤ j by omega) with h1 | h1
              · rw [← h1] at *
                rw [h1e]
                omega
              · have := hs j hj 1 (by omega) (by omega)
                rw [h1e] at this
                omega

/-- Membership in a leaf's key list is membership in the in-use prefix. -/
theorem mem_leaf_keys (lf : LeafNode) (K : Nat) :
    K ∈ lf.keys ↔ ∃ i, i < lf.size ∧ (slot lf.phys i).1 = K := by
  unfold LeafNode.keys
  simp only [List.mem_map, List.mem_range]

/-- Bounded-exists over a list versus its slots. -/
theorem exists_mem_iff_slot {es : List (Nat × Nat)}
    (P : Nat × Nat → Prop) :
    (∃ e ∈ es, P e) ↔ ∃ i, i < es.length ∧ P (slot es i) := by
  constructor
  · rintro ⟨e, he, hp⟩
    obtain ⟨i, hi_, heq⟩ := List.mem_iff_getElem.mp he
    refine ⟨i, hi_, ?_⟩
    rw [slot, List.getD_eq_getElem es (0, 0) hi_, heq]
    exact hp
  · rintro ⟨i, hi_, hp⟩
    refine ⟨slot es i, ?_, hp⟩
    rw [slot, List.getD_eq_getElem es (0, 0) hi_]
    exact List.getElem_mem hi_

/-- Membership of `K` under an internal node is membership under one of
its children. -/
theorem keysUnder_internal_mem {s : List (Nat × BNode)} {pid : Nat}
    {nd : InternalNode} (hk : lookupKey s pid = some (.internal nd))
    (fuel : Nat) (K : Nat) :
    K ∈ BTree.keysUnder s (fuel + 1) pid ↔
      ∃ i, i < nd.entries.length ∧
        K ∈ BTree.keysUnder s fuel (slot nd.entries i).2 := by
  show K ∈ (match lookupKey s pid with
    | some (.leaf lf) => lf.keys
    | some (.internal nd) =>
        (nd.entries.map Prod.snd).flatMap (BTree.keysUnder s fuel)
    | none => []) ↔ _
  rw [hk]
  rw [List.mem_flatMap]
  constructor
  · rintro ⟨c, hc, hmem⟩
    obtain ⟨e, he, rfl⟩ := List.mem_map.mp hc
    obtain ⟨i, hi_, hp⟩ :=
      (exists_mem_iff_slot
        (fun e => K ∈ BTree.keysUnder s fuel e.2)).mp ⟨e, he, hmem⟩
    exact ⟨i, hi_, hp⟩
  · rintro ⟨i, hi_, hmem⟩
    obtain ⟨e, he, hp⟩ :=
      (exists_mem_iff_slot
        (fun e => K ∈ BTree.keysUnder s fuel e.2)).mpr ⟨i, hi_, hmem⟩
    exact ⟨e.2, List.mem_map_of_mem Prod.snd he, hp⟩

/-- Every key stored under a well-formed subtree lies in its window. -/
theorem keysUnder_window {s : List (Nat × BNode)} :
    ∀ {pid lo hi h}, NodeWF s pid lo hi h →
      ∀ fuel x, x ∈ BTree.keysUnder s fuel pid →
        lo ≤ x ∧ (∀ hh, hi = some hh → x < hh) := by
  intro pid lo hi h hwf
  induction hwf with
  | leaf pid lo hi lf hk hlwf =>
      intro fuel x hx
      cases fuel with
      | zero => cases hx
      | succ fuel =>
          have : x ∈ lf.keys := by
            show x ∈ lf.keys
            have hx' : x ∈ (match lookupKey s pid with
              | some (.leaf lf) => lf.keys
              | some (.internal nd) =>
                  (nd.entries.map Prod.snd).flatMap (BTree.keysUnder s fuel)
              | none => []) := hx
            rw [hk] at hx'
            exact hx'
          obtain ⟨i, hi_, hkey⟩ := (mem_leaf_keys lf x).mp this
          exact ⟨hkey ▸ hlwf.keys_lo i hi_,
            fun hh hhh => hkey ▸ hlwf.keys_hi i hi_ hh hhh⟩
  | internal pid lo hi nd h hk hlen hsorted hgk hch ih =>
      intro fuel x hx
      cases fuel with
      | zero => cases hx
      | succ fuel =>
          obtain ⟨i, hi_, hmem⟩ := (keysUnder_internal_mem hk fuel x).mp hx
          obtain ⟨h1, h2⟩ := ih i hi_ fuel x hmem
          constructor
          · refine Nat.le_trans ?_ h1
            unfold childLo
            split
            · exact Nat.le_refl lo
            · next hne => exact (hgk i (by omega) hi_).1
          · intro hh hhh
            unfold childHi at h2
            split at h2
            · next hlt =>
                have hx2 := h2 _ rfl
                have := (hgk (i + 1) (by omega) hlt).2 hh hhh
                omega
            · exact h2 hh hhh

/-- Tree descent on a well-formed subtree reaches a well-formed leaf
whose window admits the key, and the key is stored in the subtree iff it
is stored in that leaf's in-use prefix. -/
theorem descend_finds_leaf {t : BTree} (K : Nat) :
    ∀ {pid lo hi h}, NodeWF t.store pid lo hi h →
      lo ≤ K → (∀ hh, hi = some hh → K < hh) →
      ∃ lp lf lo' hi',
        (∀ fuel, h + 1 ≤ fuel → t.descend fuel pid K = some lp) ∧
        lookupKey t.store lp = some (.leaf lf) ∧
        LeafWF lf lo' hi' ∧ (∀ hh, hi' = some hh → K < hh) ∧
        (∀ fuel2, h + 1 ≤ fuel2 →
          (K ∈ BTree.keysUnder t.store fuel2 pid ↔
            ∃ i, i < lf.size ∧ (slot lf.phys i).1 = K)) := by
  intro pid lo hi h hwf
  induction hwf with
  | leaf pid lo hi lf hk hlwf =>
      intro hKlo hKhi
      refine ⟨pid, lf, lo, hi, ?_, hk, hlwf, hKhi, ?_⟩
      · intro fuel hf
        cases fuel with
        | zero => omega
        | succ f =>
            show (match lookupKey t.store pid with
              | some (.leaf _) => some pid
              | some (.internal nd) =>
                  t.descend f (InternalNode.lookUpChild nd.entries K) K
              | none => none) = some pid
            rw [hk]
      · intro fuel2 hf2
        cases fuel2 with
        | zero => omega
        | succ f2 =>
            have hred : BTree.keysUnder t.store (f2 + 1) pid = lf.keys := by
              show (match lookupKey t.store pid with
                | some (.leaf lf) => lf.keys
                | some (.internal nd) =>
                    (nd.entries.map Prod.snd).flatMap
                      (BTree.keysUnder t.store f2)
                | none => []) = lf.keys
              rw [hk]
            rw [hred]
            exact mem_leaf_keys lf K
  | internal pid lo hi nd h hk hlen hsorted hgk hch ih =>
      intro hKlo hKhi
      obtain ⟨i, hi_, heq, hlow, hhigh⟩ := lookUpChild_spec K nd.entries
        (by intro hnil; rw [hnil] at hlen; simp at hlen) hsorted
      have hclo : childLo lo nd.entries i ≤ K := by
        unfold childLo
        split
        · exact hKlo
        · next hne => exact hlow (by omega)
      have hchi : ∀ hh, childHi hi nd.entries i = some hh → K < hh := by
        intro hh hhh
        unfold childHi at hhh
        split at hhh
        · next hlt =>
            rw [Option.some.injEq] at hhh
            exact hhh ▸ hhigh (i + 1) (by omega) hlt
        · exact hKhi hh hhh
      obtain ⟨lp, lf, lo', hi', hdesc, hlf, hlwf, hKhi', hmem⟩ :=
        ih i hi_ hclo hchi
      refine ⟨lp, lf, lo', hi', ?_, hlf, hlwf, hKhi', ?_⟩
      · intro fuel hf
        cases fuel with
        | zero => omega
        | succ f =>
            show (match lookupKey t.store pid with
              | some (.leaf _) => some pid
              | some (.internal nd) =>
                  t.descend f (InternalNode.lookUpChild nd.entries K) K
              | none => none) = some lp
            rw [hk]
            show t.descend f (InternalNode.lookUpChild nd.entries K) K =
              some lp
            rw [heq]
            exact hdesc f (by omega)
      · intro fuel2 hf2
        cases fuel2 with
        | zero => omega
        | succ f2 =>
            rw [keysUnder_internal_mem hk f2 K]
            constructor
            · rintro ⟨j, hj, hm⟩
              rcases Nat.lt_trichotomy j i with hji | hji | hji
              · exfalso
                obtain ⟨hwlo, hwhi⟩ := keysUnder_window (hch j hj) f2 K hm
                have hjhi : childHi hi nd.entries j =
                    some ((slot nd.entries (j + 1)).1) := by
                  unfold childHi
                  rw [if_pos (by omega)]
                have hklt := hwhi _ hjhi
                have hkge : (slot nd.entries (j + 1)).1 ≤ K := by
                  rcases Nat.eq_or_lt_of_le (show j + 1 ≤ i by omega) with
                    he | hlt2
                  · exact he ▸ hlow (by omega)
                  · have := hsorted i hi_ (j + 1) (by omega) hlt2
                    have := hlow (by omega)
                    omega
                omega
              · subst hji
                exact (hmem f2 (by omega)).mp hm
              · exfalso
                obtain ⟨hwlo, hwhi⟩ := keysUnder_window (hch j hj) f2 K hm
                have hjlo : childLo lo nd.entries j =
                    (slot nd.entries j).1 := by
                  unfold childLo
                  rw [if_neg (by omega)]
                rw [hjlo] at hwlo
                have := hhigh j hji hj
                omega
            · intro hex
              exact ⟨i, hi_, (hmem f2 (by omega)).mpr hex⟩

/-- C9: on a well-formed tree, `Insert` of a key already present returns
`false` and leaves the tree (its whole page store, root and allocation
counter) unchanged — the stored value is not updated — while `Insert` of
an absent key returns `true`. -/
theorem C9_insert_duplicate_false_fresh_true (t : BTree) (K V : Nat)
    (hwf : TreeWF t) :
    (BTree.containsKey t K = true → t.insert K V = (false, t)) ∧
    (BTree.containsKey t K = false → (t.insert K V).1 = true) := by
  rcases hwf with hempty | ⟨h, r, hroot, hwfn, hfuel⟩
  · constructor
    · intro hc
      unfold BTree.containsKey at hc
      rw [hempty] at hc
      cases hc
    · intro _
      unfold BTree.insert
      rw [hempty]
  · obtain ⟨lp, lf, lo', hi', hdesc, hlf, hlwf, hKhi', hmem⟩ :=
      descend_finds_leaf K hwfn (Nat.zero_le K) (by intro hh hc; cases hc)
    have hmem' := hmem (t.store.length + 1) (by omega)
    have hconts : BTree.containsKey t K = true ↔
        ∃ i, i < lf.size ∧ (slot lf.phys i).1 = K := by
      unfold BTree.containsKey
      rw [hroot, decide_eq_true_iff]
      exact hmem'
    have hlook := leaf_lookUp_iff hlwf K hKhi'
    have hglp : t.getLeafPage K = some lp := by
      unfold BTree.getLeafPage
      rw [hroot]
      exact hdesc _ (by omega)
    constructor
    · intro hc
      obtain ⟨v, hv⟩ := Option.isSome_iff_exists.mp
        (hlook.mpr (hconts.mp hc))
      unfold BTree.insert
      rw [hroot]
      show t.insertIntoLeaf K V = (false, t)
      unfold BTree.insertIntoLeaf
      rw [hglp]
      simp only [hlf, hv]
    · intro hc
      have hnone : lf.lookUp K = none := by
        cases hl : lf.lookUp K with
        | none => rfl
        | some v =>
            exfalso
            have hsome : (lf.lookUp K).isSome = true := by
              rw [hl]
              rfl
            have := hconts.mpr (hlook.mp hsome)
            rw [hc] at this
            cases this
      unfold BTree.insert
      rw [hroot]
      show (t.insertIntoLeaf K V).1 = true
      unfold BTree.insertIntoLeaf
      rw [hglp]
      simp only [hlf, hnone]
      split <;> rfl

/-- The root leaf of a concrete one-leaf tree storing keys 1 and 2. -/
def sampleLeaf : LeafNode :=
  { phys := [(1, 1), (2, 2)], size := 2, next := none, maxSize := 4,
    parent := none }

/-- A concrete one-leaf tree storing keys 1 and 2. -/
def wfSampleTree : BTree :=
  { store := [(0, .leaf sampleLeaf)], rootPageId := some 0, nextPageId := 1,
    leafMaxSize := 4, internalMaxSize := 4 }

/-- `wfSampleTree` is well formed. -/
theorem wfSampleTree_wf : TreeWF wfSampleTree := by
  refine Or.inr ⟨0, 0, rfl, ?_, by decide⟩
  refine NodeWF.leaf 0 0 none _ rfl ?_
  have hkh : ∀ i, i < sampleLeaf.size → ∀ h,
      (none : Option Nat) = some h → (slot sampleLeaf.phys i).1 < h :=
    fun i _ h hc => by cases hc
  have hss : ∀ h, (none : Option Nat) = some h →
      (slot sampleLeaf.phys sampleLeaf.size).1 = 0 ∨
        h ≤ (slot sampleLeaf.phys sampleLeaf.size).1 :=
    fun h hc => by cases hc
  exact ⟨by decide, by decide, hkh, by decide, hss, fun _ => by decide⟩

/-- C9 (witness): inserting the already-present key 1 into
`wfSampleTree` returns `false` and leaves the tree unchanged; inserting
the absent key 3 returns `true`. -/
theorem C9_insert_witness :
    wfSampleTree.insert 1 5 = (false, wfSampleTree) ∧
      (wfSampleTree.insert 3 3).1 = true :=
  ⟨(C9_insert_duplicate_false_fresh_true wfSampleTree 1 5
      wfSampleTree_wf).1 (by decide),
    (C9_insert_duplicate_false_fresh_true wfSampleTree 3 3
      wfSampleTree_wf).2 (by decide)⟩

end MyBustub
